import Mathlib

/-!
Verification development for the nestjs-jsonapi serializer.

This file gives a shallow embedding, in Lean, of the query-plan parser, the
in-memory collection engine (filter / sort / paginate), the attribute and
relationship projectors, the include resolver and the document assembler of
the repository (src/services/serializer.service.ts first revision, which the
claim line references point into; src/services/attribute-processor.service.ts;
the RelationshipProcessor; the IncludeProcessor found in
src/interceptors/filters.interceptor.ts; src/services/serializer-registry.service.ts),
and proves or refutes the frozen claims about it.

Modelling conventions:
  - JavaScript scalar values carried by raw items are modelled by JsVal
    (strings and integer-valued numbers; the data manipulated by the claims
    is integer/string valued, and no arithmetic on fractional values occurs
    in the modelled code paths).
  - A raw JS object is an association list of property name to property
    value; absence of a key models the JS value undefined.
  - NaN is modelled where it can arise (parseInt, numeric coercions) by the
    none case of Option Int.
  - Exceptions are modelled by an Except monad over JErr, which distinguishes
    the NestJS NotFoundException / BadRequestException from generic Errors,
    because catch blocks in the source treat them differently.
  - Query parameter values as delivered by the web layer are strings or
    arrays of strings (repeated parameters); the source code reads the query
    as a flat key-to-value mapping.
-/

/-!
Executable string primitives. The corresponding functions of the core library
are built on Substring iterators that the kernel cannot evaluate, so the
JS string operations used by the source (split, trim, toLowerCase,
startsWith, endsWith, slice, Number and parseInt coercions) are implemented
here by structural recursion over character lists; they are used everywhere
a string is inspected.
-/

/-- Does the first list occur as a prefix of the second. -/
def listPrefix (p l : List Char) : Bool :=
  match p, l with
  | [], _ => true
  | _ :: _, [] => false
  | a :: ps, b :: ls => a == b && listPrefix ps ls

/-- Does the needle occur as a contiguous sublist of the haystack. -/
def listContainsSub (needle hay : List Char) : Bool :=
  match hay with
  | [] => listPrefix needle []
  | _ :: rest => listPrefix needle hay || listContainsSub needle rest

/-- JS String.prototype.includes. -/
def sIncludes (hay needle : String) : Bool :=
  listContainsSub needle.data hay.data

/-- JS String.prototype.startsWith. -/
def sStartsWith (s pre : String) : Bool :=
  listPrefix pre.data s.data

/-- JS String.prototype.endsWith. -/
def sEndsWith (s post : String) : Bool :=
  listPrefix post.data.reverse s.data.reverse

/-- Split a character list at every occurrence of the separator character. -/
def splitCharAux (sep : Char) (l : List Char) (cur : List Char) : List (List Char) :=
  match l with
  | [] => [cur.reverse]
  | c :: rest =>
    if c == sep then cur.reverse :: splitCharAux sep rest []
    else splitCharAux sep rest (c :: cur)

/-- JS String.prototype.split with a one-character separator (the only kind
the source uses: commas, dots and colons). -/
def sSplit (s : String) (sep : Char) : List String :=
  (splitCharAux sep s.data []).map String.mk

/-- Lower-case one ASCII character (JS toLowerCase on the ASCII range used by
the modelled data). -/
def charLower (c : Char) : Char :=
  if 'A' ≤ c && c ≤ 'Z' then Char.ofNat (c.toNat + 32) else c

/-- JS String.prototype.toLowerCase. -/
def sLower (s : String) : String :=
  String.mk (s.data.map charLower)

/-- JS String.prototype.trim. -/
def sTrim (s : String) : String :=
  String.mk (((s.data.dropWhile Char.isWhitespace).reverse.dropWhile
    Char.isWhitespace).reverse)

/-- Numeric value of a nonempty list of decimal digits, none if any
character is not a digit. -/
def digitsToNat (l : List Char) : Option Nat :=
  match l with
  | [] => none
  | _ =>
    if l.all Char.isDigit then
      some (l.foldl (fun acc c => acc * 10 + (c.toNat - 48)) 0)
    else none

/-- JS Number(s) restricted to integer literals: optional sign and decimal
digits; the empty (trimmed) string is 0; anything else is NaN (none).
Fractional and exotic literals do not occur in the modelled data. -/
def strToNumber (s : String) : Option Int :=
  match (sTrim s).data with
  | [] => some 0
  | '-' :: rest => (digitsToNat rest).map (fun n => -(n : Int))
  | '+' :: rest => (digitsToNat rest).map (fun n => (n : Int))
  | l => (digitsToNat l).map (fun n => (n : Int))

/-- JS parseInt(s, 10): trim, optional sign, then the longest leading run of
digits; NaN (none) if that run is empty. -/
def parseIntJS (s : String) : Option Int :=
  let core : List Char → Option Int := fun l =>
    match digitsToNat (l.takeWhile Char.isDigit) with
    | some n => some (n : Int)
    | none => none
  match (sTrim s).data with
  | '-' :: rest => (core rest).map (fun n => -n)
  | '+' :: rest => core rest
  | l => core l

/-- JS String.prototype.slice(i, j) with the negative-index convention
(negative indices count from the end). -/
def sSlice (s : String) (i j : Int) : String :=
  let n : Int := s.data.length
  let norm : Int → Nat := fun x => (if x < 0 then max (n + x) 0 else min x n).toNat
  let a := norm i
  let b := norm j
  String.mk ((s.data.drop a).take (b - a))

/-- JavaScript primitive scalar values stored in raw data items. -/
inductive JsVal : Type where
  | str (s : String)
  | num (n : Int)
  deriving Repr, DecidableEq

mutual
/-- A raw JS data object: a constructor (class) name, as observed by
item.constructor.name in the source, and an association list of properties. -/
inductive RItem : Type where
  | mk (ctorName : String) (props : List (String × RProp))

/-- A property value of a raw JS object: a scalar, the JS null, a nested
object (to-one related data) or an array of objects (to-many related data). -/
inductive RProp : Type where
  | val (v : JsVal)
  | jnull
  | one (it : RItem)
  | many (items : List RItem)
end

/-- Association-list lookup, modelling JS property access obj[k]; none models
the value undefined. The first binding wins, as keys are unique in JS objects. -/
def assocGet {β : Type} (l : List (String × β)) (k : String) : Option β :=
  (l.find? (fun p => p.1 == k)).map (fun p => p.2)

/-- Association-list update modelling the JS assignment obj[k] = v: an
existing key keeps its position (and gets the new value), a fresh key is
appended, matching JS object key insertion order. -/
def assocSet {β : Type} (l : List (String × β)) (k : String) (v : β) : List (String × β) :=
  match l with
  | [] => [(k, v)]
  | (k1, v1) :: rest =>
    if k1 == k then (k1, v) :: rest else (k1, v1) :: assocSet rest k v

/-- Property access item[k] on a raw object. -/
def jsGet (it : RItem) (k : String) : Option RProp :=
  match it with
  | .mk _ props => assocGet props k

/-- Constructor name of a raw object, modelling item.constructor.name. -/
def ctorNameOf (it : RItem) : String :=
  match it with
  | .mk c _ => c

/-- JS truthiness of a property value (undefined handled by callers). -/
def jsTruthyRP (p : RProp) : Bool :=
  match p with
  | .val (.str s) => s ≠ ""
  | .val (.num n) => n ≠ 0
  | .jnull => false
  | .one _ => true
  | .many _ => true

/-- JS String(x) / x.toString() on a defined, non-null property value.
Objects stringify to "[object Object]" and arrays to their elements joined
by commas, as in JS. -/
def jsToStringRP (p : RProp) : String :=
  match p with
  | .val (.str s) => s
  | .val (.num n) => toString n
  | .jnull => "null"
  | .one _ => "[object Object]"
  | .many items => String.intercalate "," (items.map (fun _ => "[object Object]"))

/-- A JS primitive after ToPrimitive coercion for relational comparison:
either a string or a number (none modelling NaN). -/
inductive JsPrim : Type where
  | pstr (s : String)
  | pnum (n : Option Int)
  deriving Repr, DecidableEq

/-- ToPrimitive of a defined property value, for relational comparison:
strings stay strings, numbers stay numbers, null coerces through ToNumber
to 0, objects and arrays coerce through their default toString. -/
def toPrimRP (p : RProp) : JsPrim :=
  match p with
  | .val (.str s) => .pstr s
  | .val (.num n) => .pnum (some n)
  | .jnull => .pnum (some 0)
  | .one _ => .pstr "[object Object]"
  | .many items => .pstr (jsToStringRP (.many items))

/-- ToPrimitive of a possibly-undefined property value: undefined coerces to
NaN in relational comparison. -/
def toPrimOpt (p : Option RProp) : JsPrim :=
  match p with
  | none => .pnum none
  | some q => toPrimRP q

/-- ToNumber on a primitive. -/
def primNum (x : JsPrim) : Option Int :=
  match x with
  | .pstr s => strToNumber s
  | .pnum n => n

/-- The JS abstract relational comparison: both strings compare
lexicographically, otherwise both sides coerce to numbers and any NaN makes
the comparison undefined (none), which every relational operator treats as
false. -/
def cmpPrim (x y : JsPrim) : Option Ordering :=
  match x, y with
  | .pstr a, .pstr b => some (compare a b)
  | _, _ =>
    match primNum x, primNum y with
    | some m, some n => some (compare m n)
    | _, _ => none

def jsLtB (x y : JsPrim) : Bool := cmpPrim x y == some .lt
def jsGtB (x y : JsPrim) : Bool := cmpPrim x y == some .gt
def jsLeB (x y : JsPrim) : Bool := cmpPrim x y == some .lt || cmpPrim x y == some .eq
def jsGeB (x y : JsPrim) : Bool := cmpPrim x y == some .gt || cmpPrim x y == some .eq

/-- JS strict equality between a defined property value and a scalar operand
(the only strict comparisons the filter engine performs against query-derived
operands). Distinct runtime types never compare equal under three-equals. -/
def jsStrictEqRP (p : RProp) (v : JsVal) : Bool :=
  match p, v with
  | .val (.str a), .str b => a == b
  | .val (.num m), .num n => m == n
  | _, _ => false

/-- Case-insensitive substring containment, as the filter engine performs on
string/string comparisons (lowercase both, then includes). -/
def containsCI (hay needle : String) : Bool :=
  sIncludes (sLower hay) (sLower needle)

/-- A raw query parameter value: a string, or an array of strings as produced
by repeated parameters. -/
inductive QVal : Type where
  | str (s : String)
  | arr (items : List String)
  deriving Repr, DecidableEq

/-- A value stored in the extracted filter / page parameter map
(extractObjectParams): a plain string, an array (possibly carrying extra
string-keyed properties added by the nested-bracket branch), or a plain
object of operator entries built by the nested-bracket branch. -/
inductive FilterStored : Type where
  | strv (s : String)
  | arrv (items : List String) (props : List (String × QVal))
  | objv (props : List (String × QVal))
  deriving Repr, DecidableEq

/-- JS String(operand) on a query-derived operand (arrays join with commas). -/
def operandStr (q : QVal) : String :=
  match q with
  | .str s => s
  | .arr items => String.intercalate "," items

/-- ToPrimitive of a query-derived operand for relational comparison. -/
def operandPrim (q : QVal) : JsPrim := .pstr (operandStr q)

/-- One operator case of the nested-filter switch in applyFiltering, given
the (defined) item value, the operator name and the operand. Unknown
operators fall through to true, as the switch default does. -/
def filterOpHolds (iv : RProp) (op : String) (operand : QVal) : Bool :=
  if op = "eq" then
    match operand with
    | .str s => jsStrictEqRP iv (.str s)
    | .arr _ => false
  else if op = "ne" then
    match operand with
    | .str s => !(jsStrictEqRP iv (.str s))
    | .arr _ => true
  else if op = "gt" then jsGtB (toPrimRP iv) (operandPrim operand)
  else if op = "gte" then jsGeB (toPrimRP iv) (operandPrim operand)
  else if op = "lt" then jsLtB (toPrimRP iv) (operandPrim operand)
  else if op = "lte" then jsLeB (toPrimRP iv) (operandPrim operand)
  else if op = "in" then
    match operand with
    | .arr items =>
      match iv with
      | .val (.str s) => items.contains s
      | _ => false
    | .str s => (sSplit (operandStr (.str s)) ',').contains (jsToStringRP iv)
  else if op = "nin" then
    match operand with
    | .arr items =>
      match iv with
      | .val (.str s) => !(items.contains s)
      | _ => true
    | .str s => !((sSplit (operandStr (.str s)) ',').contains (jsToStringRP iv))
  else if op = "like" then
    match iv, operand with
    | .val (.str s), .str o => containsCI s o
    | _, _ => false
  else true

/-- Object.entries of a stored filter value that reached the nested branch
(typeof value is object): for an array the entries are its index/element
pairs followed by any extra string-keyed properties; for a plain object its
own entries. -/
def storedEntries (items : List String) (props : List (String × QVal)) : List (String × QVal) :=
  (items.enum.map (fun p => (toString p.1, QVal.str p.2))) ++ props

/-- One filter map entry applied to an item, mirroring the body of the
callback in applyFiltering: a missing target field passes vacuously; a
non-object value does case-insensitive substring match on string fields and
strict equality otherwise; an object value checks every operator entry. -/
def entryHolds (it : RItem) (key : String) (fv : FilterStored) : Bool :=
  match jsGet it key with
  | none => true
  | some iv =>
    match fv with
    | .strv s =>
      match iv with
      | .val (.str a) => containsCI a s
      | _ => jsStrictEqRP iv (.str s)
    | .arrv items props => (storedEntries items props).all (fun e => filterOpHolds iv e.1 e.2)
    | .objv props => props.all (fun e => filterOpHolds iv e.1 e.2)

/-- SerializerService.applyFiltering: keep exactly the items on which every
filter entry holds. -/
def applyFiltering (data : List RItem) (filters : List (String × FilterStored)) : List RItem :=
  data.filter (fun it => filters.all (fun kv => entryHolds it kv.1 kv.2))

example :
    applyFiltering
      [RItem.mk "X" [("price", .val (.num 10))], RItem.mk "X" [("price", .val (.num 150))]]
      [("price", .objv [("gte", .str "100")])]
    = [RItem.mk "X" [("price", .val (.num 150))]] := by rfl

example : entryHolds (RItem.mk "X" [("price", .val (.num 10))]) "price"
    (.objv [("gte", .str "100")]) = false := by rfl

/-- Direction of one sort key. -/
inductive SortDir : Type where
  | asc
  | desc
  deriving Repr, DecidableEq

/-- One parsed sort key. -/
structure SortKey : Type where
  field : String
  direction : SortDir
  deriving Repr, DecidableEq

/-- The comparator closure passed to Array.prototype.sort by applySorting:
walk the sort keys in order; the first key on which the values differ decides
(minus one or plus one according to its direction); if every key ties the
comparator returns zero. -/
def sortComparator (sort : List SortKey) (a b : RItem) : Int :=
  match sort with
  | [] => 0
  | k :: rest =>
    if jsLtB (toPrimOpt (jsGet a k.field)) (toPrimOpt (jsGet b k.field)) then
      match k.direction with | .asc => -1 | .desc => 1
    else if jsLtB (toPrimOpt (jsGet b k.field)) (toPrimOpt (jsGet a k.field)) then
      match k.direction with | .asc => 1 | .desc => -1
    else sortComparator rest a b

/-- SerializerService.applySorting: sort a fresh copy of the collection with
the multi-key comparator. Array.prototype.sort is required by the language
specification to be stable, and when the comparator is consistent the output
is fully determined; List.mergeSort is such a stable sort and embeds it. -/
def applySorting (data : List RItem) (sort : List SortKey) : List RItem :=
  List.mergeSort data (fun a b => sortComparator sort a b ≤ 0)

/-- Error values: the source distinguishes the NestJS NotFoundException and
BadRequestException from generic Error values in its catch blocks. -/
inductive JErr : Type where
  | notFound (msg : String)
  | badRequest (msg : String)
  | error (msg : String)
  deriving Repr, DecidableEq

/-- Message carried by an error value (the .message property). -/
def jerrMsg (e : JErr) : String :=
  match e with
  | .notFound m => m
  | .badRequest m => m
  | .error m => m

/-- A JS number that is either an integer or NaN (none). Infinite values can
arise in JS only from division by a zero page size, which is outside the
regime of every theorem below and is mapped to NaN by the division model. -/
abbrev JsNum : Type := Option Int

def jnAdd (x y : JsNum) : JsNum :=
  match x, y with
  | some m, some n => some (m + n)
  | _, _ => none

def jnSub (x y : JsNum) : JsNum :=
  match x, y with
  | some m, some n => some (m - n)
  | _, _ => none

def jnMul (x y : JsNum) : JsNum :=
  match x, y with
  | some m, some n => some (m * n)
  | _, _ => none

/-- Math.min; NaN propagates. -/
def jnMin (x y : JsNum) : JsNum :=
  match x, y with
  | some m, some n => some (min m n)
  | _, _ => none

/-- Relational comparison on JS numbers: false whenever NaN is involved. -/
def jnLtB (x y : JsNum) : Bool :=
  match x, y with
  | some m, some n => m < n
  | _, _ => false

def jnGtB (x y : JsNum) : Bool :=
  match x, y with
  | some m, some n => n < m
  | _, _ => false

/-- Math.ceil(a / b) for a positive divisor (the only regime the pagination
theorems use; a zero or negative divisor would give an infinite or
negative-fractional quotient in JS and is mapped to NaN here). -/
def jnCeilDivPos (x y : JsNum) : JsNum :=
  match x, y with
  | some a, some b => if 0 < b then some ((a + b - 1).fdiv b) else none
  | _, _ => none

/-- ToIntegerOrInfinity as used by Array.prototype.slice: NaN becomes 0. -/
def jnToIntOrZero (x : JsNum) : Int :=
  match x with
  | some n => n
  | none => 0

/-- Number.prototype.toString. -/
def jnToString (x : JsNum) : String :=
  match x with
  | some n => toString n
  | none => "NaN"

/-- Array.prototype.slice(i, j): negative indices count from the end, and
both bounds clamp to the array range. -/
def jsSliceList {α : Type} (l : List α) (i j : Int) : List α :=
  let n : Int := l.length
  let norm : Int → Nat := fun x => (if x < 0 then max (n + x) 0 else min x n).toNat
  let a := norm i
  let b := norm j
  (l.drop a).take (b - a)

/-- UTF-8 bytes of one character. -/
def utf8Bytes (c : Char) : List Nat :=
  let n := c.toNat
  if n < 128 then [n]
  else if n < 2048 then [192 + n / 64, 128 + n % 64]
  else if n < 65536 then [224 + n / 4096, 128 + (n / 64) % 64, 128 + n % 64]
  else [240 + n / 262144, 128 + (n / 4096) % 64, 128 + (n / 64) % 64, 128 + n % 64]

/-- The bytes encodeURIComponent leaves unescaped: ASCII letters, digits and
minus, underscore, dot, exclamation, tilde, star, apostrophe, parentheses. -/
def unreservedByte (b : Nat) : Bool :=
  (65 ≤ b && b ≤ 90) || (97 ≤ b && b ≤ 122) || (48 ≤ b && b ≤ 57) ||
    [45, 95, 46, 33, 126, 42, 39, 40, 41].contains b

def hexDigitChar (n : Nat) : Char :=
  "0123456789ABCDEF".data.getD n '0'

def percentByte (b : Nat) : String :=
  if unreservedByte b then String.mk [Char.ofNat b]
  else String.mk ['%', hexDigitChar (b / 16), hexDigitChar (b % 16)]

/-- JS encodeURIComponent: percent-encode every UTF-8 byte outside the
unreserved set. -/
def encodeURIComponent (s : String) : String :=
  String.join ((s.data.flatMap utf8Bytes).map percentByte)

/-- SerializerService.buildQueryString. -/
def buildQueryString (params : List (String × String)) : String :=
  String.intercalate "&"
    (params.map (fun kv => encodeURIComponent kv.1 ++ "=" ++ encodeURIComponent kv.2))

/-- The live request as the serializer observes it: the flat query mapping,
the allow-lists stored on the request by the interceptors, and the URL data
that the express request exposes (modelled as already-assembled strings,
since protocol, host and path come from the web layer). -/
structure JReq : Type where
  query : List (String × QVal) := []
  allowedIncludes : Option (List String) := none
  allowedFilters : Option (List String) := none
  currentUrl : String := ""
  baseUrl : String := ""
  deriving Repr, DecidableEq

/-- SerializerService.getCurrentUrl: empty when no request is in scope. -/
def getCurrentUrl (req : Option JReq) : String :=
  match req with
  | none => ""
  | some r => r.currentUrl

/-- SerializerService.getBaseUrl. -/
def getBaseUrl (req : Option JReq) : String :=
  match req with
  | none => ""
  | some r => r.baseUrl

/-- SerializerService.getCurrentQuery: only string-valued parameters are
kept for link reconstruction. -/
def getCurrentQuery (req : Option JReq) : List (String × String) :=
  match req with
  | none => []
  | some r => r.query.filterMap (fun kv =>
      match kv.2 with
      | .str s => some (kv.1, s)
      | .arr _ => none)

/-- The pagination member of SerializerOptions. The after and before members
hold whatever the parameter extraction stored (a string in the intended use,
but possibly an array or an operator object for adversarial queries). -/
structure PageOpts : Type where
  number : Option JsNum := none
  size : Option JsNum := none
  after : Option FilterStored := none
  before : Option FilterStored := none
  count : Bool := true
  deriving Repr, DecidableEq

/-- Pagination metadata object; a none field is an absent key. The countN
field models the key named count in the cursor metadata. -/
structure PagMeta : Type where
  currentPage : Option JsNum := none
  fromIdx : Option JsNum := none
  lastPage : Option JsNum := none
  perPage : Option JsNum := none
  toIdx : Option JsNum := none
  total : Option JsNum := none
  countN : Option JsNum := none
  deriving Repr, DecidableEq

/-- Is the metadata object empty (Object.keys(meta).length is zero). -/
def pagMetaEmpty (m : PagMeta) : Bool :=
  m.currentPage.isNone && m.fromIdx.isNone && m.lastPage.isNone && m.perPage.isNone &&
    m.toIdx.isNone && m.total.isNone && m.countN.isNone

/-- Pagination links object; self is always present. -/
structure PagLinks : Type where
  self : String
  first : Option String := none
  last : Option String := none
  prev : Option String := none
  next : Option String := none
  deriving Repr, DecidableEq

/-- Result record of applyPagination. -/
structure PagResult : Type where
  data : List RItem
  meta : PagMeta
  links : PagLinks

/-- JS truthiness of a stored parameter value (arrays and objects are always
truthy; only the empty string is falsy among the occurring values). -/
def fsTruthy (v : FilterStored) : Bool :=
  match v with
  | .strv s => s ≠ ""
  | .arrv _ _ => true
  | .objv _ => true

def fsTruthyOpt (v : Option FilterStored) : Bool :=
  match v with
  | none => false
  | some w => fsTruthy w

/-- JS ToString of a stored parameter value (arrays join with commas,
objects stringify to the default object string). -/
def fsToStringJS (v : FilterStored) : String :=
  match v with
  | .strv s => s
  | .arrv items _ => String.intercalate "," items
  | .objv _ => "[object Object]"

/-- parseInt applied to a stored parameter value: coerce to string, then
parse a leading integer. -/
def parseIntFS (v : FilterStored) : JsNum :=
  parseIntJS (fsToStringJS v)

/-- The expression item.id.toString(): a TypeError if the id property is
undefined or null, the JS string conversion otherwise. -/
def idToStringE (it : RItem) : Except JErr String :=
  match jsGet it "id" with
  | none => .error (.error "Cannot read properties of undefined reading toString")
  | some .jnull => .error (.error "Cannot read properties of null reading toString")
  | some p => .ok (jsToStringRP p)

/-- Array.prototype.findIndex with a predicate that may throw: returns the
index of the first match or minus one. -/
def findIndexAux (p : RItem → Except JErr Bool) (l : List RItem) (i : Int) : Except JErr Int :=
  match l with
  | [] => .ok (-1)
  | x :: rest => do
    if (← p x) then pure i else findIndexAux p rest (i + 1)

/-- Template-literal interpolation of a property value (undefined and null
interpolate as their names rather than throwing). -/
def jsTemplateOpt (p : Option RProp) : String :=
  match p with
  | none => "undefined"
  | some q => jsToStringRP q

/-- The createPageLink closure of the offset branch of applyPagination:
rebuild the current query with only page[number] replaced. -/
def createPageLink (req : Option JReq) (n : JsNum) : String :=
  getBaseUrl req ++ "?" ++
    buildQueryString (assocSet (getCurrentQuery req) "page[number]" (jnToString n))

/-- SerializerService.applyPagination. The offset branch is taken when both
page number and size are present; otherwise the cursor branch is taken when
after or before is truthy; otherwise the data is returned whole. Errors model
the TypeErrors the JS code would throw (split on a non-string after token,
reading id off an item that lacks one). -/
def applyPagination (req : Option JReq) (data : List RItem) (pg : PageOpts) :
    Except JErr PagResult := do
  let totalCount : Int := data.length
  if pg.number.isSome && pg.size.isSome then
    let page : JsNum := pg.number.getD none
    let size : JsNum := pg.size.getD none
    let startIndex := jnMul (jnSub page (some 1)) size
    let endIndex := jnMul page size
    let newData := jsSliceList data (jnToIntOrZero startIndex) (jnToIntOrZero endIndex)
    let meta : PagMeta :=
      if pg.count then
        { currentPage := some page
          fromIdx := some (jnAdd startIndex (some 1))
          lastPage := some (jnCeilDivPos (some totalCount) size)
          perPage := some size
          toIdx := some (jnMin endIndex (some totalCount))
          total := some (some totalCount) }
      else {}
    let lastPage := jnCeilDivPos (some totalCount) size
    let links : PagLinks :=
      { self := getCurrentUrl req
        first := some (createPageLink req (some 1))
        last := some (createPageLink req lastPage)
        prev := if jnGtB page (some 1) then some (createPageLink req (jnSub page (some 1)))
          else none
        next := if jnLtB page lastPage then some (createPageLink req (jnAdd page (some 1)))
          else none }
    pure { data := newData, meta := meta, links := links }
  else if fsTruthyOpt pg.after || fsTruthyOpt pg.before then
    let size : Int :=
      match pg.size with
      | some (some n) => if n == 0 then 10 else n
      | _ => 10
    let startIndex : Int ←
      if fsTruthyOpt pg.after then
        match pg.after.getD (.strv "") with
        | .strv s => do
          let afterId := (sSplit s ':').get? 1
          let afterIndex ← findIndexAux (fun it => do
              let sid ← idToStringE it
              pure (some sid == afterId)) data 0
          pure (if afterIndex != -1 then afterIndex + 1 else 0)
        | _ => .error (.error "pagination.after.split is not a function")
      else pure 0
    let newData := jsSliceList data startIndex (startIndex + size)
    let meta : PagMeta :=
      if pg.count then
        { perPage := some (some size)
          countN := some (some (newData.length : Int))
          total := some (some totalCount) }
      else {}
    match newData with
    | [] =>
      pure { data := newData, meta := meta, links := { self := getCurrentUrl req } }
    | h :: t => do
      let resourceType :=
        match jsGet h "type" with
        | some p => if jsTruthyRP p then jsToStringRP p else "resource"
        | none => "resource"
      let nextLink : Option String ←
        if startIndex + size < totalCount then do
          let lastItem := t.getLastD h
          let q1 := assocSet (getCurrentQuery req) "page[after]"
            (resourceType ++ ":" ++ jsTemplateOpt (jsGet lastItem "id"))
          let q2 := assocSet q1 "page[size]" (toString size)
          pure (some (getBaseUrl req ++ "?" ++ buildQueryString q2))
        else pure none
      let prevLink : Option String ←
        if startIndex > 0 then do
          match data.get? (max 0 (startIndex - size)).toNat with
          | none => .error (.error "Cannot read properties of undefined reading id")
          | some firstItem => do
            let q1 := assocSet (getCurrentQuery req) "page[before]"
              (resourceType ++ ":" ++ jsTemplateOpt (jsGet firstItem "id"))
            let q2 := assocSet q1 "page[size]" (toString size)
            pure (some (getBaseUrl req ++ "?" ++ buildQueryString q2))
        else pure none
      pure { data := newData, meta := meta,
             links := { self := getCurrentUrl req, next := nextLink, prev := prevLink } }
  else
    pure { data := data, meta := {}, links := { self := getCurrentUrl req } }

/-- Opaque caller-supplied parameters forwarded to visibility predicates and
identity functions. -/
abbrev Params : Type := List (String × String)

/-- SerializerOptions: the normalized query plan. The member named include in
the source is named incl here because include is a reserved word in Lean. -/
structure SerializerOptions : Type where
  incl : Option (List String) := none
  fields : Option (List (String × List String)) := none
  pagination : Option PageOpts := none
  sort : Option (List SortKey) := none
  filter : Option (List (String × FilterStored)) := none
  params : Option Params := none
  deriving DecidableEq

/-- JS truthiness of a raw query value. -/
def qvTruthy (q : QVal) : Bool :=
  match q with
  | .str s => s ≠ ""
  | .arr _ => true

/-- The expression value.split(char): a TypeError when the value is an array
(split is not a function), the split otherwise. -/
def qvSplit (q : QVal) (sep : Char) : Except JErr (List String) :=
  match q with
  | .str s => .ok (sSplit s sep)
  | .arr _ => .error (.error "split is not a function")

/-- A raw query value as stored by extractObjectParams. -/
def qvToStored (q : QVal) : FilterStored :=
  match q with
  | .str s => .strv s
  | .arr items => .arrv items []

/-- SerializerService.filterAllowedIncludes: keep an include path when some
allowed path equals it, extends it by a dot, is extended by it by a dot, or
equals its first segment. -/
def filterAllowedIncludes (includes allowedIncludes : List String) : List String :=
  includes.filter (fun inc =>
    let basePath := (sSplit inc '.').headD ""
    allowedIncludes.any (fun allowed =>
      allowed == inc ||
      sStartsWith allowed (inc ++ ".") ||
      sStartsWith inc (allowed ++ ".") ||
      allowed == basePath))

/-- SerializerService.processIncludeOptions: split the include parameter on
commas, trim, filter by the allow-list when one is stored on the request. A
non-string include value makes the split throw. -/
def processIncludeOptions (opts : SerializerOptions) (req : JReq) :
    Except JErr SerializerOptions := do
  match assocGet req.query "include" with
  | none => pure opts
  | some qv =>
    if !qvTruthy qv then pure opts
    else do
      let parts ← qvSplit qv ','
      let includes := parts.map sTrim
      let includes :=
        match req.allowedIncludes with
        | none => includes
        | some allowed => filterAllowedIncludes includes allowed
      pure { opts with incl := some includes }

/-- SerializerService.processFieldOptions: initialize the field-selection
map, then record an entry for every key of shape fields[type]. A non-string
value makes the split throw. -/
def processFieldOptions (opts : SerializerOptions) (req : JReq) :
    Except JErr SerializerOptions := do
  let start := opts.fields.getD []
  let final ← req.query.foldlM (fun acc kv => do
      if sStartsWith kv.1 "fields[" && sEndsWith kv.1 "]" then
        let resourceType := sSlice kv.1 7 (-1)
        let parts ← qvSplit kv.2 ','
        pure (assocSet acc resourceType (parts.map sTrim))
      else
        pure acc) start
  pure { opts with fields := some final }

/-- The nested-parameter regular expression of extractObjectParams: match a
key of the exact shape prefix[p][q] with nonempty bracket contents free of
closing brackets, returning the two captures. -/
def matchNested (pre k : String) : Option (String × String) :=
  if sStartsWith k (pre ++ "[") then
    let l := k.data.drop (pre.length + 1)
    let p1 := l.takeWhile (fun c => c ≠ ']')
    let r1 := l.drop p1.length
    if p1.isEmpty then none
    else
      match r1 with
      | ']' :: '[' :: r2 =>
        let p2 := r2.takeWhile (fun c => c ≠ ']')
        let r3 := r2.drop p2.length
        if p2.isEmpty then none
        else
          match r3 with
          | [']'] => some (String.mk p1, String.mk p2)
          | _ => none
      | _ => none
  else none

/-- SerializerService.extractObjectParams: walk the query keys in order; a
key of shape prefix[name] stores its raw value under name (this simple branch
also fires on nested keys, storing junk entries like name][op); a key of
shape prefix[name][op] stores op under the object at name, creating the
object when the current entry is absent or falsy. Assigning a property to a
string primitive is a silent no-op (non-strict mode); assigning to an array
attaches an extra property. -/
def extractObjectParams (query : List (String × QVal)) (pre : String) :
    List (String × FilterStored) :=
  query.foldl (fun result kv =>
    let result1 :=
      if sStartsWith kv.1 (pre ++ "[") && sEndsWith kv.1 "]" then
        assocSet result (sSlice kv.1 ((pre.length : Int) + 1) (-1)) (qvToStored kv.2)
      else result
    match matchNested pre kv.1 with
    | none => result1
    | some (pn, nk) =>
      match assocGet result1 pn with
      | none => assocSet result1 pn (.objv [(nk, kv.2)])
      | some old =>
        if !fsTruthy old then assocSet result1 pn (.objv [(nk, kv.2)])
        else
          match old with
          | .strv _ => result1
          | .arrv items props => assocSet result1 pn (.arrv items (assocSet props nk kv.2))
          | .objv props => assocSet result1 pn (.objv (assocSet props nk kv.2))) []

/-- SerializerService.processPaginationOptions: extract the page[...]
parameters and merge them over any pagination already in the options; never
throws (parseInt coerces instead of throwing). -/
def processPaginationOptions (opts : SerializerOptions) (req : JReq) : SerializerOptions :=
  let pageParams := extractObjectParams req.query "page"
  if pageParams.isEmpty then opts
  else
    let prevNumber := match opts.pagination with | some p => p.number | none => none
    let prevSize := match opts.pagination with | some p => p.size | none => none
    let prevAfter := match opts.pagination with | some p => p.after | none => none
    let prevBefore := match opts.pagination with | some p => p.before | none => none
    let prevCount := match opts.pagination with | some p => p.count | none => true
    let number := match assocGet pageParams "number" with
      | some v => if fsTruthy v then some (parseIntFS v) else prevNumber
      | none => prevNumber
    let size := match assocGet pageParams "size" with
      | some v => if fsTruthy v then some (parseIntFS v) else prevSize
      | none => prevSize
    let after := match assocGet pageParams "after" with
      | some v => if fsTruthy v then some v else prevAfter
      | none => prevAfter
    let before := match assocGet pageParams "before" with
      | some v => if fsTruthy v then some v else prevBefore
      | none => prevBefore
    let count := match assocGet pageParams "count" with
      | some v =>
        if fsTruthy v then
          match v with
          | .strv s => s == "true"
          | _ => false
        else prevCount
      | none => prevCount
    let pg : PageOpts :=
      { number := number, size := size, after := after, before := before, count := count }
    { opts with pagination := some pg }

/-- SerializerService.processSortOptions: split the sort parameter on commas;
a leading minus on a trimmed entry gives a descending key on the rest of the
entry, otherwise an ascending key. A non-string sort value makes the split
throw. -/
def processSortOptions (opts : SerializerOptions) (req : JReq) :
    Except JErr SerializerOptions := do
  match assocGet req.query "sort" with
  | none => pure opts
  | some qv =>
    if !qvTruthy qv then pure opts
    else do
      let parts ← qvSplit qv ','
      let sorts := parts.map (fun s =>
        let f := sTrim s
        if sStartsWith f "-" then
          { field := String.mk (f.data.drop 1), direction := SortDir.desc }
        else
          { field := f, direction := SortDir.asc })
      pure { opts with sort := some sorts }

/-- SerializerService.filterAllowedFilters: an empty allow-list drops every
filter; otherwise keep exactly the filter fields the allow-list contains. -/
def filterAllowedFilters (filters : List (String × FilterStored))
    (allowedFilters : List String) : List (String × FilterStored) :=
  if allowedFilters.isEmpty then []
  else filters.filter (fun kv => allowedFilters.contains kv.1)

/-- SerializerService.processFilterOptions: extract the filter[...]
parameters; when an allow-list is stored on the request, drop disallowed
fields and leave the options untouched if nothing survives; never throws. -/
def processFilterOptions (opts : SerializerOptions) (req : JReq) : SerializerOptions :=
  let filterParams := extractObjectParams req.query "filter"
  if filterParams.isEmpty then opts
  else
    match req.allowedFilters with
    | none => { opts with filter := some filterParams }
    | some allowed =>
      let filters := filterAllowedFilters filterParams allowed
      if filters.isEmpty then opts
      else { opts with filter := some filters }

/-- SerializerService.getAutoOptions: with no request in scope return the
existing options (or fresh ones); otherwise run every parameter processor in
source order over a copy of the existing options. -/
def getAutoOptions (req : Option JReq) (existing : Option SerializerOptions) :
    Except JErr SerializerOptions := do
  match req with
  | none => pure (existing.getD {})
  | some r => do
    let o0 := existing.getD {}
    let o1 ← processIncludeOptions o0 r
    let o2 ← processFieldOptions o1 r
    let o3 := processPaginationOptions o2 r
    let o4 ← processSortOptions o3 r
    pure (processFilterOptions o4 r)

/-- Metadata of one declared attribute (name exposed, source property,
optional visibility predicate over the item and the caller parameters). -/
structure AttrMeta : Type where
  name : String
  property : String
  condition : Option (RItem → Option Params → Bool) := none

/-- The polymorphic member of a relationship declaration: absent, a map from
constructor class name to resource type, or the literal true (resolve the
type from the lower-cased constructor name). -/
inductive PolyOpt : Type where
  | no
  | map (m : List (String × String))
  | auto

/-- Metadata of one declared relationship. -/
structure RelMeta : Type where
  name : String
  property : String
  relType : String
  resourceType : Option String := none
  polymorphic : PolyOpt := .no
  idMethodName : Option String := none
  condition : Option (RItem → Option Params → Bool) := none
  serializer : Option String := none

/-- The identity rule of a serializer: a field name or a derivation
function, as the id member of the decorator options. -/
inductive IdRule : Type where
  | fieldName (f : String)
  | fn (f : RItem → Option Params → String)

/-- The reflected metadata of one serializer class: resource type name,
identity rule, declared attributes and relationships. -/
structure SerMeta : Type where
  tyName : String
  idRule : IdRule := .fieldName "id"
  attrs : List AttrMeta := []
  rels : List RelMeta := []

/-- The reflect-metadata store: serializer class name to its metadata. -/
abbrev Env : Type := List (String × SerMeta)

/-- The SerializerRegistry state: resource type name to serializer class
name (the source stores the class constructor; the class name stands for
it here, metadata being looked up through Env). -/
abbrev Reg : Type := List (String × String)

/-- SerializerRegistry.find: the registered class for a type, or none. -/
def registryFind (reg : Reg) (type : String) : Option String :=
  assocGet reg type

/-- SerializerRegistry.getResourceTypeFromSerializer: the declared type if
truthy, else the lower-cased class name with a trailing Serializer suffix
stripped, else none. -/
def getResourceTypeFromSerializer (env : Env) (cls : String) : Option String :=
  let conv : Option String :=
    if sEndsWith cls "Serializer" then
      some (sLower (sSlice cls 0 ((cls.length : Int) - 10)))
    else none
  match assocGet env cls with
  | some m => if m.tyName ≠ "" then some m.tyName else conv
  | none => conv

/-- SerializerRegistry.registerByClassName (last writer wins via the map
set). -/
def registerByClassName (env : Env) (reg : Reg) (cls : String) : Reg :=
  match getResourceTypeFromSerializer env cls with
  | some t => assocSet reg t cls
  | none => reg

/-- AttributeProcessor.getAttributes: look up the metadata (NotFoundException
when absent); for each declared attribute skip it when a field-selection
entry for this resource type exists and omits the exposed name, or when a
visibility predicate is present and fails; otherwise copy the source
property value verbatim (an attribute whose source property is undefined
still creates a key whose value is undefined, modelled by none). -/
def getAttributes (env : Env) (cls : String) (item : RItem) (opts : SerializerOptions) :
    Except JErr (List (String × Option RProp)) :=
  match assocGet env cls with
  | none => .error (.notFound ("Serializer metadata not found for " ++ cls))
  | some m =>
    let allowedFields : Option (List String) :=
      match opts.fields with
      | none => none
      | some fm => assocGet fm m.tyName
    .ok (m.attrs.foldl (fun result attr =>
      if (match allowedFields with
          | some af => !(af.contains attr.name)
          | none => false) then result
      else if (match attr.condition with
          | some c => !(c item opts.params)
          | none => false) then result
      else assocSet result attr.name (jsGet item attr.property)) [])

/-- Relationship linkage data: a to-one linkage (possibly null) or a to-many
linkage list; each element is an (id, type) identifier pair or null. -/
inductive RelData : Type where
  | one (d : Option (String × String))
  | many (ds : List (Option (String × String)))
  deriving DecidableEq

/-- Property access on a related value: only object values own properties;
primitives and arrays yield undefined for the properties read here. -/
def propGet (p : RProp) (k : String) : Option RProp :=
  match p with
  | .one it => jsGet it k
  | _ => none

/-- Constructor class name of a related value, as item.constructor.name. -/
def relCtorName (p : RProp) : String :=
  match p with
  | .one it => ctorNameOf it
  | .many _ => "Array"
  | .val (.str _) => "String"
  | .val (.num _) => "Number"
  | .jnull => ""

/-- RelationshipProcessor.buildRelationshipData applied to one related
value: null for a falsy value; otherwise resolve the resource type
(statically, or through the polymorphic map keyed by constructor name, or
from the lower-cased constructor name), then the identifier (custom id
method when declared and truthy, else the id property when defined and
non-null); a type or identifier that cannot be determined throws, wrapped in
the local catch. -/
def buildRelationshipData (rel : RelMeta) (p : RProp) : Except JErr (Option (String × String)) :=
  if !jsTruthyRP p then .ok none
  else
    let ctorN := relCtorName p
    let resourceType : Option String :=
      match rel.polymorphic with
      | .no => rel.resourceType
      | .map m =>
        match assocGet m ctorN with
        | some t => some t
        | none => rel.resourceType
      | .auto => some (sLower ctorN)
    if (match resourceType with | some t => t == "" | none => true) then
      .error (.error "Failed to build relationship data: Resource type could not be determined")
    else
      let customId : Option RProp :=
        match rel.idMethodName with
        | some mname => if mname ≠ "" then propGet p mname else none
        | none => none
      let idStr : Option String :=
        if (match customId with | some q => jsTruthyRP q | none => false) then
          (customId.map jsToStringRP)
        else
          match propGet p "id" with
          | some .jnull => none
          | some q => some (jsToStringRP q)
          | none => none
      match idStr with
      | none => .error (.error "Failed to build relationship data: ID could not be determined")
      | some i => .ok (some (i, resourceType.getD ""))

/-- RelationshipProcessor.serializeRelationship: an absent or null source
property gives an empty array for a to-many relationship and null for a
to-one; a to-many relationship over a non-array value gives an empty array;
otherwise each related value is turned into linkage data. Errors are wrapped
by the local catch. -/
def serializeRelationship (rel : RelMeta) (item : RItem) : Except JErr RelData :=
  let body : Except JErr RelData :=
    match jsGet item rel.property with
    | none => .ok (if rel.relType == "hasMany" then .many [] else .one none)
    | some .jnull => .ok (if rel.relType == "hasMany" then .many [] else .one none)
    | some p =>
      if rel.relType == "hasMany" then
        match p with
        | .many items => do
          let ds ← items.mapM (fun it => buildRelationshipData rel (.one it))
          pure (.many ds)
        | _ => .ok (.many [])
      else do
        let d ← buildRelationshipData rel p
        pure (.one d)
  match body with
  | .ok r => .ok r
  | .error e => .error (.error ("Failed to serialize relationship: " ++ jerrMsg e))

/-- RelationshipProcessor.getRelationships: for each declared relationship
whose visibility predicate (if any) passes, serialize the linkage and store
it under the exposed name; any error is wrapped by the surrounding catch as
a generic error. Relationship metadata missing entirely behaves as an empty
declaration list. -/
def getRelationships (env : Env) (cls : String) (item : RItem) (opts : SerializerOptions) :
    Except JErr (List (String × RelData)) :=
  let rels := match assocGet env cls with | some m => m.rels | none => []
  let body := rels.foldlM (fun result rel =>
    if (match rel.condition with
        | some c => !(c item opts.params)
        | none => false) then pure result
    else do
      let d ← serializeRelationship rel item
      pure (assocSet result rel.name d)) []
  match body with
  | .ok r => .ok r
  | .error e => .error (.error ("Failed to process relationships: " ++ jerrMsg e))

/-- One serialized resource object: identifier, type, attribute map and, when
any relationship was produced, the relationship map (each entry standing for
the object with the single member data in the JSON form). -/
structure ResourceObject : Type where
  id : String
  type : String
  attributes : List (String × Option RProp)
  relationships : Option (List (String × RelData)) := none

/-- SerializerService.serializeItem (first revision): resolve the metadata
(NotFoundException when absent); derive the identifier from the identity
rule, where a falsy identifier raises a BadRequestException rewrapped by the
inner catch; project attributes and relationships, attaching the
relationships member only when nonempty. Generic errors from the projectors
are rewrapped by the outer catch; NotFound and BadRequest pass through. -/
def serializeItem (env : Env) (cls : String) (item : RItem) (opts : SerializerOptions) :
    Except JErr ResourceObject :=
  let body : Except JErr ResourceObject :=
    match assocGet env cls with
    | none => .error (.notFound ("Serializer metadata not found for " ++ cls))
    | some m => do
      let rawId : Option String :=
        match m.idRule with
        | .fn f => some (f item opts.params)
        | .fieldName f =>
          match jsGet item f with
          | some p => if jsTruthyRP p then some (jsToStringRP p) else none
          | none => none
      let id ←
        match rawId with
        | some s =>
          if s == "" then
            Except.error (JErr.badRequest
              "ID generation failed: Failed to get ID for the resource")
          else pure s
        | none =>
          Except.error (JErr.badRequest
            "ID generation failed: Failed to get ID for the resource")
      let attributes ← getAttributes env cls item opts
      let rels ← getRelationships env cls item opts
      pure { id := id, type := m.tyName, attributes := attributes,
             relationships := if rels.isEmpty then none else some rels }
  match body with
  | .ok r => .ok r
  | .error (.notFound msg) => .error (.notFound msg)
  | .error (.badRequest msg) => .error (.badRequest msg)
  | .error (.error msg) => .error (.error ("Item serialization failed: " ++ msg))

/-- JS String.prototype.substring(start) to the end of the string. -/
def sSubstringFrom (s : String) (i : Nat) : String :=
  String.mk (s.data.drop i)

/-- The IncludedSet of the include resolver: an insertion-ordered map from
the key type:id to the serialized resource. -/
abbrev IncAcc : Type := List (String × ResourceObject)

/-- Insertion into the IncludedSet: a no-op when the key is already present
(first seen wins), an append otherwise. -/
def insertIncluded (acc : IncAcc) (k : String) (v : ResourceObject) : IncAcc :=
  if (assocGet acc k).isSome then acc else acc ++ [(k, v)]

/-- The serializer-resolution chain of IncludeProcessor.processIncluded: the
declared serializer of the relationship; else a registry hit on the
lower-cased constructor name; else on the lower-cased constructor name with
Serializer appended; else, for an object-valued polymorphic map, a registry
hit on the mapped type. -/
def resolveRelatedSerializer (_env : Env) (reg : Reg) (rel : RelMeta) (relatedItem : RItem) :
    Option String :=
  match rel.serializer with
  | some s => some s
  | none =>
    let typeName := ctorNameOf relatedItem
    if typeName == "" then none
    else
      match registryFind reg (sLower typeName) with
      | some s => some s
      | none =>
        match registryFind reg (sLower (typeName ++ "Serializer")) with
        | some s => some s
        | none =>
          match rel.polymorphic with
          | .map m =>
            match assocGet m typeName with
            | some t => registryFind reg t
            | none => none
          | _ => none

/-- The type of the serializeItemFn callback handed to the include
processor. -/
abbrev SerializeFn : Type :=
  String → RItem → SerializerOptions → Except JErr ResourceObject

/-- The related values reached through one relationship property: an array
contributes its elements, a single object contributes itself. A primitive
related value is dropped here; in the source it would reach serializeItem
and fail for want of an identifier, and no claim exercises that corner. -/
def relatedItemsOf (p : RProp) : List RItem :=
  match p with
  | .many l => l
  | .one it => [it]
  | .val _ => []
  | .jnull => []

/-- The per-related-item body of the include walk: resolve a serializer (no
resolution skips the item), serialize the related item restricted to the
next-level include paths, insert it into the IncludedSet under type:id when
both are truthy, and recurse through the given continuation when deeper
paths remain. -/
def procIncItems (env : Env) (reg : Reg) (fn : SerializeFn) (opts : SerializerOptions)
    (rel : RelMeta) (recurse : String → RItem → List String → IncAcc → Except JErr IncAcc)
    (nextLevel : List String) (items : List RItem) (acc : IncAcc) : Except JErr IncAcc :=
  match items with
  | [] => .ok acc
  | relatedItem :: rest => do
    let acc1 ←
      match resolveRelatedSerializer env reg rel relatedItem with
      | none => pure acc
      | some relSer => do
        let serialized ← fn relSer relatedItem { opts with incl := some nextLevel }
        if serialized.id ≠ "" && serialized.type ≠ "" then
          let key := serialized.type ++ ":" ++ serialized.id
          let acc' := insertIncluded acc key serialized
          if nextLevel.length > 0 then recurse relSer relatedItem nextLevel acc'
          else pure acc'
        else pure acc
    procIncItems env reg fn opts rel recurse nextLevel rest acc1

/-- The per-relationship body of the include walk: a relationship is
processed when some include path equals its name or extends it by a dot; the
next-level paths are the extensions with the name and dot stripped. -/
def procIncRels (env : Env) (reg : Reg) (fn : SerializeFn) (opts : SerializerOptions)
    (recurse : String → RItem → List String → IncAcc → Except JErr IncAcc)
    (item : RItem) (includePaths : List String) (rels : List RelMeta) (acc : IncAcc) :
    Except JErr IncAcc :=
  match rels with
  | [] => .ok acc
  | rel :: rest => do
    let acc1 ←
      if !(includePaths.any (fun path => path == rel.name || sStartsWith path (rel.name ++ "."))) then
        pure acc
      else
        match jsGet item rel.property with
        | none => pure acc
        | some .jnull => pure acc
        | some p =>
          let nextLevel := (includePaths.filter (fun path => sStartsWith path (rel.name ++ ".")))
            |>.map (fun path => sSubstringFrom path (rel.name.length + 1))
          procIncItems env reg fn opts rel recurse nextLevel (relatedItemsOf p) acc
    procIncRels env reg fn opts recurse item includePaths rest acc1

/-- The recursive core of IncludeProcessor.processIncluded. The recursion of
the source is on the include paths, every recursive call passing next-level
paths of strictly smaller total length; the fuel passed by processIncluded
exceeds that total length, so the zero-fuel branch is never reached from the
top entry. -/
def procIncAux (fuel : Nat) (env : Env) (reg : Reg) (fn : SerializeFn)
    (opts : SerializerOptions) (cls : String) (item : RItem) (includePaths : List String)
    (acc : IncAcc) : Except JErr IncAcc :=
  match fuel with
  | 0 => .ok acc
  | fuel' + 1 =>
    let rels := ((assocGet env cls).map SerMeta.rels).getD []
    procIncRels env reg fn opts (procIncAux fuel' env reg fn opts) item includePaths rels acc

/-- Total character length of the include paths, the termination measure of
the include walk. -/
def pathsLen (paths : List String) : Nat :=
  paths.foldl (fun a p => a + p.length) 0

/-- IncludeProcessor.processIncluded: walk every root item (a single root is
walked once) along the requested include paths, and return the values of the
IncludedSet in insertion order. Any error is wrapped by the surrounding
catch as a generic error. -/
def processIncluded (env : Env) (reg : Reg) (fn : SerializeFn) (cls : String)
    (items : List RItem) (opts : SerializerOptions) : Except JErr (List ResourceObject) :=
  let paths := opts.incl.getD []
  let fuel := pathsLen paths + 1
  let body := items.foldlM (fun acc it => procIncAux fuel env reg fn opts cls it paths acc) []
  match body with
  | .ok acc => .ok (acc.map (fun kv => kv.2))
  | .error e => .error (.error ("Failed to process included resources: " ++ jerrMsg e))

/-- The data argument of serialize: null or undefined, a single object, or
an array. -/
inductive JsData : Type where
  | jsnull
  | one (it : RItem)
  | many (items : List RItem)

/-- The data member of the assembled document. -/
inductive DocData : Type where
  | null
  | one (r : ResourceObject)
  | coll (rs : List ResourceObject)

/-- The assembled document: primary data and the optional included, meta and
links members (absent members are none). -/
structure JDoc : Type where
  data : DocData
  included : Option (List ResourceObject) := none
  meta : Option PagMeta := none
  links : Option PagLinks := none

/-- SerializerService.serialize (first revision): register the serializer,
normalize the options from the request, answer null data with a bare
document, otherwise filter, sort and paginate collections, project every
remaining item, side-load the requested includes from the processed data,
and attach meta and links when nonempty. NotFound and BadRequest errors pass
through the final catch; all others are rewrapped. -/
def serialize (env : Env) (reg : Reg) (req : Option JReq) (cls : String) (data : JsData)
    (options? : Option SerializerOptions) : Except JErr JDoc :=
  let body : Except JErr JDoc := do
    let reg' := registerByClassName env reg cls
    let finalOptions ← getAutoOptions req options?
    let isCollection := match data with | .many _ => true | _ => false
    match data with
    | .jsnull => pure { data := if isCollection then .coll [] else .null }
    | _ => do
      let processedAndPage : List RItem × PagMeta × Option PagLinks ←
        match data with
        | .many l => do
          let l1 :=
            match finalOptions.filter with
            | some f => if f.isEmpty then l else applyFiltering l f
            | none => l
          let l2 :=
            match finalOptions.sort with
            | some s => if s.isEmpty then l1 else applySorting l1 s
            | none => l1
          match finalOptions.pagination with
          | some pg => do
            let r ← applyPagination req l2 pg
            pure (r.data, r.meta, some r.links)
          | none => pure (l2, {}, none)
        | _ => pure ([], {}, none)
      let docData : DocData ←
        match data with
        | .many _ => do
          let rs ← processedAndPage.1.mapM (fun it => serializeItem env cls it finalOptions)
          pure (.coll rs)
        | .one it => do
          let r ← serializeItem env cls it finalOptions
          pure (.one r)
        | .jsnull => pure .null
      let rootItems : List RItem :=
        match data with
        | .many _ => processedAndPage.1
        | .one it => [it]
        | .jsnull => []
      let included : Option (List ResourceObject) ←
        match finalOptions.incl with
        | some li =>
          if li.isEmpty then pure none
          else do
            let inc ← processIncluded env reg' (fun c i o => serializeItem env c i o)
              cls rootItems finalOptions
            pure (some inc)
        | none => pure none
      let metaOut : Option PagMeta :=
        if pagMetaEmpty processedAndPage.2.1 then none else some processedAndPage.2.1
      pure { data := docData, included := included, meta := metaOut,
             links := processedAndPage.2.2 }
  match body with
  | .ok d => .ok d
  | .error (.notFound msg) => .error (.notFound msg)
  | .error (.badRequest msg) => .error (.badRequest msg)
  | .error (.error msg) => .error (.error ("Serialization failed: " ++ msg))

/-!
Shared reduction lemmas for the Except monad, used throughout the proofs.
-/

@[simp] theorem exBind_ok {ε α β : Type} (a : α) (f : α → Except ε β) :
    (Except.ok a >>= f) = f a := rfl

@[simp] theorem exBind_err {ε α β : Type} (e : ε) (f : α → Except ε β) :
    ((Except.error e : Except ε α) >>= f) = Except.error e := rfl

@[simp] theorem exPure_eq {ε α : Type} (a : α) :
    (pure a : Except ε α) = Except.ok a := rfl

/-!
C10: serialize on null data.
-/

/-- C10: if the data argument to serialize is null or undefined, serialize
returns a document whose data member is exactly null (never an empty array),
and no filtering, sorting, pagination or include processing contributes to
the result, whatever the options: the document is the bare null-data
document. The hypothesis states that option normalization itself succeeded
(a malformed request would make serialize throw before reaching the data
check). -/
theorem serialize_null_gives_null_doc (env : Env) (reg : Reg) (req : Option JReq)
    (cls : String) (opts : Option SerializerOptions) (o' : SerializerOptions)
    (h : getAutoOptions req opts = .ok o') :
    serialize env reg req cls .jsnull opts = .ok { data := .null } := by
  simp [serialize, h]

/-- C10 witness: with no request in scope and no options, option
normalization trivially succeeds and serialize of null data yields the bare
null document. -/
theorem serialize_null_gives_null_doc_witness :
    getAutoOptions none none = .ok {} ∧
      serialize [] [] none "ArticleSerializer" .jsnull none = .ok { data := .null } :=
  ⟨rfl, serialize_null_gives_null_doc [] [] none "ArticleSerializer" none {} rfl⟩

/-!
C1: include allow-list prefix rule, concrete scenario. The allow-list is
allowed = [author] and the client requests author.profile and comments.
-/

/-- The metadata environment of the C1 scenario: articles with a to-one
author (users) and to-many comments, users with a to-one profile; every
relationship declares its serializer. -/
def c1env : Env :=
  [("ArticleSerializer",
    { tyName := "articles",
      rels := [
        { name := "author", property := "author", relType := "belongsTo",
          resourceType := some "users", serializer := some "UserSerializer" },
        { name := "comments", property := "comments", relType := "hasMany",
          resourceType := some "comments", serializer := some "CommentSerializer" }] }),
   ("UserSerializer",
    { tyName := "users",
      rels := [
        { name := "profile", property := "profile", relType := "belongsTo",
          resourceType := some "profiles", serializer := some "ProfileSerializer" }] }),
   ("ProfileSerializer", { tyName := "profiles" }),
   ("CommentSerializer", { tyName := "comments" })]

def c1profile : RItem := .mk "Profile" [("id", .val (.num 3))]

def c1user : RItem := .mk "User" [("id", .val (.num 7)), ("profile", .one c1profile)]

def c1comment : RItem := .mk "Comment" [("id", .val (.num 9))]

def c1article : RItem := .mk "Article"
  [("id", .val (.num 1)), ("author", .one c1user), ("comments", .many [c1comment])]

/-- The C1 request: include=author.profile,comments with the allow-list
[author] stored on the request by the includes interceptor. -/
def c1req : JReq :=
  { query := [("include", .str "author.profile,comments")],
    allowedIncludes := some ["author"] }

def c1doc : Except JErr JDoc :=
  serialize c1env [] (some c1req) "ArticleSerializer" (.one c1article) none

/-- The type:id keys of the included array of a document (empty on error). -/
def c1includedKeys : List String :=
  match c1doc with
  | .ok doc => (doc.included.getD []).map (fun r => r.type ++ ":" ++ r.id)
  | .error _ => []

/-- C1 counterexample: against the claim, the serialized document does
contain the resource for the author's profile target: the allow-list filter
retains the full path author.profile (a path is kept when it extends an
allowed path by a dot), and the include resolver then recurses into
profile. -/
theorem c1_profile_is_included : "profiles:3" ∈ c1includedKeys := by decide

/-- C1 amended: with allowed includes [author] and requested includes
[author.profile, comments], the retained include list is exactly
[author.profile]; the included array contains the author target and, because
the full retained path licenses recursion, also the author profile target;
it contains nothing for comments. -/
theorem c1_amended :
    filterAllowedIncludes ["author.profile", "comments"] ["author"] = ["author.profile"] ∧
      c1includedKeys = ["users:7", "profiles:3"] ∧
      "comments:9" ∉ c1includedKeys := by
  refine ⟨by decide, by decide, by decide⟩

/-!
C5: filtering semantics and the concrete price example.
-/

def c5item (n : Int) : RItem := .mk "Product" [("price", .val (.num n))]

def c5items : List RItem := [c5item 10, c5item 50, c5item 100, c5item 150, c5item 200]

/-- C5: an item is kept by filtering exactly when every filter entry holds on
it; an entry whose target field is undefined on the item holds vacuously;
and the collection with prices 10, 50, 100, 150, 200 filtered by price gte
100 yields exactly the items with prices 100, 150 and 200. -/
theorem applyFiltering_keeps_iff :
    (∀ (data : List RItem) (filters : List (String × FilterStored)) (x : RItem),
        x ∈ applyFiltering data filters ↔
          x ∈ data ∧ ∀ kv ∈ filters, entryHolds x kv.1 kv.2 = true) ∧
      (∀ (x : RItem) (key : String) (fv : FilterStored),
        jsGet x key = none → entryHolds x key fv = true) ∧
      applyFiltering c5items [("price", .objv [("gte", .str "100")])]
        = [c5item 100, c5item 150, c5item 200] := by
  refine ⟨?_, ?_, by rfl⟩
  · intro data filters x
    simp [applyFiltering, List.mem_filter, List.all_eq_true]
  · intro x key fv h
    simp [entryHolds, h]

/-- C5 witness: the vacuity conjunct applied at a concrete item lacking the
target field. -/
theorem applyFiltering_keeps_iff_witness :
    jsGet (c5item 10) "color" = none ∧
      entryHolds (c5item 10) "color" (.strv "red") = true :=
  ⟨rfl, applyFiltering_keeps_iff.2.1 (c5item 10) "color" (.strv "red") rfl⟩

/-!
C8: round-trip of an in filter from the query string to the membership test.
-/

/-- C8: parsing filter[status][in]=a,b,c stores the comma-joined operand
(under status, with the junk key of the simple branch alongside); the
resulting filter map accepts an item carrying a status value exactly when
that value, as a string, is a member of the exact set a, b, c. -/
theorem filter_in_roundtrip :
    extractObjectParams [("filter[status][in]", .str "a,b,c")] "filter"
        = [("status][in", .strv "a,b,c"), ("status", .objv [("in", .str "a,b,c")])] ∧
      sSplit "a,b,c" ',' = ["a", "b", "c"] ∧
      (∀ (c : String) (v : JsVal),
        ((extractObjectParams [("filter[status][in]", .str "a,b,c")] "filter").all
            (fun kv => entryHolds (.mk c [("status", .val v)]) kv.1 kv.2))
          = (["a", "b", "c"].contains (jsToStringRP (.val v)))) := by
  refine ⟨by decide, by decide, ?_⟩
  intro c v
  show (entryHolds (.mk c [("status", .val v)]) "status][in" (.strv "a,b,c")
      && (entryHolds (.mk c [("status", .val v)]) "status" (.objv [("in", .str "a,b,c")])
        && true))
    = (["a", "b", "c"].contains (jsToStringRP (.val v)))
  have h1 : entryHolds (.mk c [("status", .val v)]) "status][in" (.strv "a,b,c") = true := rfl
  have h2 : entryHolds (.mk c [("status", .val v)]) "status" (.objv [("in", .str "a,b,c")])
      = (filterOpHolds (.val v) "in" (.str "a,b,c") && true) := rfl
  rw [h1, h2]
  simp only [Bool.true_and, Bool.and_true]
  cases v with
  | str s => rfl
  | num n => rfl

/-!
C4: deduplication of the IncludedSet.
-/

/-- The key under which a serialized resource is stored in the IncludedSet. -/
def keyOfRO (r : ResourceObject) : String := r.type ++ ":" ++ r.id

/-- Invariant of the IncludedSet accumulator: keys are pairwise distinct and
every entry is stored under the key derived from its own type and id. -/
def IncInv (acc : IncAcc) : Prop :=
  (acc.map (fun kv => kv.1)).Nodup ∧ ∀ kv ∈ acc, kv.1 = keyOfRO kv.2

theorem assocGet_cons {β : Type} (a : String × β) (t : List (String × β)) (k : String) :
    assocGet (a :: t) k = if a.1 == k then some a.2 else assocGet t k := by
  simp only [assocGet, List.find?_cons]
  by_cases h : a.1 == k <;> simp [h]

theorem assocGet_eq_none_iff {β : Type} (l : List (String × β)) (k : String) :
    assocGet l k = none ↔ k ∉ l.map (fun kv => kv.1) := by
  induction l with
  | nil => simp [assocGet]
  | cons a t ih =>
    rw [assocGet_cons]
    by_cases h : a.1 == k
    · simp only [h, if_true, List.map_cons, List.mem_cons]
      constructor
      · intro hc
        cases hc
      · intro hc
        have : a.1 = k := by simpa using h
        exact absurd (Or.inl this.symm) hc
    · simp only [h, if_false, Bool.false_eq_true, List.map_cons, List.mem_cons, ih]
      have hne : k ≠ a.1 := fun hk => by simp [hk] at h
      constructor
      · intro hn hc
        rcases hc with hc | hc
        · exact hne hc
        · exact hn hc
      · intro hn hc
        exact hn (Or.inr hc)

theorem insertIncluded_inv (acc : IncAcc) (k : String) (v : ResourceObject)
    (hk : k = keyOfRO v) (h : IncInv acc) : IncInv (insertIncluded acc k v) := by
  unfold insertIncluded
  by_cases hc : (assocGet acc k).isSome
  · simpa [hc] using h
  · simp only [hc, if_false, Bool.false_eq_true]
    have hnone : assocGet acc k = none := by
      cases hg : assocGet acc k with
      | none => rfl
      | some w => exact absurd (by simp [hg]) hc
    have hnotin : k ∉ acc.map (fun kv => kv.1) := (assocGet_eq_none_iff acc k).mp hnone
    constructor
    · rw [List.map_append]
      refine List.Nodup.append h.1 (by simp) ?_
      intro a ha hb
      simp at hb
      subst hb
      exact hnotin ha
    · intro kv hm
      rcases List.mem_append.mp hm with hm1 | hm2
      · exact h.2 kv hm1
      · simp at hm2
        subst hm2
        exact hk

/-- Second discovery of an already-present key is a no-op: inserting under
the same key twice leaves the set exactly as after the first insertion. -/
theorem insertIncluded_idem (acc : IncAcc) (k : String) (v w : ResourceObject) :
    insertIncluded (insertIncluded acc k v) k w = insertIncluded acc k v := by
  unfold insertIncluded
  by_cases hc : (assocGet acc k).isSome
  · simp [hc]
  · simp only [hc, if_false, Bool.false_eq_true]
    have : (assocGet (acc ++ [(k, v)]) k).isSome := by
      have hnone : assocGet acc k = none := by
        cases hg : assocGet acc k with
        | none => rfl
        | some w' => exact absurd (by simp [hg]) hc
      have : k ∈ (acc ++ [(k, v)]).map (fun kv => kv.1) := by simp
      cases hg : assocGet (acc ++ [(k, v)]) k with
      | none => exact absurd this (by simpa using (assocGet_eq_none_iff _ k).mp hg)
      | some w' => simp
    simp [this]

theorem procIncItems_inv (env : Env) (reg : Reg) (fn : SerializeFn)
    (opts : SerializerOptions) (rel : RelMeta)
    (recurse : String → RItem → List String → IncAcc → Except JErr IncAcc)
    (nextLevel : List String) (items : List RItem)
    (hrec : ∀ s i p a a', IncInv a → recurse s i p a = .ok a' → IncInv a') :
    ∀ (acc acc' : IncAcc), IncInv acc →
      procIncItems env reg fn opts rel recurse nextLevel items acc = .ok acc' →
      IncInv acc' := by
  induction items with
  | nil =>
    intro acc acc' h he
    simp only [procIncItems] at he
    cases he
    exact h
  | cons it rest ih =>
    intro acc acc' h he
    rw [procIncItems] at he
    split at he
    · simp only [exPure_eq, exBind_ok] at he
      exact ih acc acc' h he
    · rename_i relSer hres
      cases hfn : fn relSer it { opts with incl := some nextLevel } with
      | error e =>
        rw [hfn] at he
        simp only [exBind_err] at he
        cases he
      | ok serialized =>
        rw [hfn] at he
        simp only [exBind_ok] at he
        split at he
        · split at he
          · cases hr : recurse relSer it nextLevel
                (insertIncluded acc (serialized.type ++ ":" ++ serialized.id) serialized) with
            | error e =>
              rw [hr] at he
              simp only [exBind_err] at he
              cases he
            | ok acc1 =>
              rw [hr] at he
              simp only [exBind_ok] at he
              exact ih acc1 acc'
                (hrec _ _ _ _ _ (insertIncluded_inv acc _ serialized rfl h) hr) he
          · simp only [exPure_eq, exBind_ok] at he
            exact ih _ acc' (insertIncluded_inv acc _ serialized rfl h) he
        · simp only [exPure_eq, exBind_ok] at he
          exact ih acc acc' h he

theorem procIncRels_inv (env : Env) (reg : Reg) (fn : SerializeFn)
    (opts : SerializerOptions)
    (recurse : String → RItem → List String → IncAcc → Except JErr IncAcc)
    (item : RItem) (includePaths : List String) (rels : List RelMeta)
    (hrec : ∀ s i p a a', IncInv a → recurse s i p a = .ok a' → IncInv a') :
    ∀ (acc acc' : IncAcc), IncInv acc →
      procIncRels env reg fn opts recurse item includePaths rels acc = .ok acc' →
      IncInv acc' := by
  induction rels with
  | nil =>
    intro acc acc' h he
    simp only [procIncRels] at he
    cases he
    exact h
  | cons rel rest ih =>
    intro acc acc' h he
    rw [procIncRels] at he
    split at he
    · simp only [exPure_eq, exBind_ok] at he
      exact ih acc acc' h he
    · split at he
      · simp only [exPure_eq, exBind_ok] at he
        exact ih acc acc' h he
      · simp only [exPure_eq, exBind_ok] at he
        exact ih acc acc' h he
      · rename_i p hne heq
        dsimp only at he
        cases hi : procIncItems env reg fn opts rel recurse
            ((includePaths.filter (fun path => sStartsWith path (rel.name ++ ".")))
              |>.map (fun path => sSubstringFrom path (rel.name.length + 1)))
            (relatedItemsOf p) acc with
        | error e =>
          rw [hi] at he
          simp only [exBind_err] at he
          cases he
        | ok acc1 =>
          rw [hi] at he
          simp only [exBind_ok] at he
          exact ih acc1 acc'
            (procIncItems_inv env reg fn opts rel recurse _ _ hrec acc acc1 h hi) he

theorem procIncAux_inv (env : Env) (reg : Reg) (fn : SerializeFn)
    (opts : SerializerOptions) :
    ∀ (fuel : Nat) (cls : String) (item : RItem) (includePaths : List String)
      (acc acc' : IncAcc), IncInv acc →
      procIncAux fuel env reg fn opts cls item includePaths acc = .ok acc' →
      IncInv acc' := by
  intro fuel
  induction fuel with
  | zero =>
    intro cls item includePaths acc acc' h he
    simp only [procIncAux] at he
    cases he
    exact h
  | succ fuel' ih =>
    intro cls item includePaths acc acc' h he
    rw [procIncAux] at he
    exact procIncRels_inv env reg fn opts (procIncAux fuel' env reg fn opts) item
      includePaths _ (fun s i p a a' ha hr => ih s i p a a' ha hr) acc acc' h he

/-- Nodup transfer along a coarser projection: if mapping by f has no
duplicates and g identifies at most as much as f, mapping by g has no
duplicates. -/
theorem nodup_map_of_nodup_map {α β γ : Type} (f : α → β) (g : α → γ) (l : List α)
    (hfg : ∀ x y, g x = g y → f x = f y) (h : (l.map f).Nodup) : (l.map g).Nodup := by
  induction l with
  | nil => simp
  | cons a t ih =>
    simp only [List.map_cons, List.nodup_cons] at h ⊢
    refine ⟨?_, ih h.2⟩
    intro hmem
    rcases List.mem_map.mp hmem with ⟨b, hb, hgb⟩
    exact h.1 (List.mem_map.mpr ⟨b, hb, hfg b a hgb⟩)

/-- C4: the included array of processIncluded never contains two entries
with the same type and id pair: insertion into the IncludedSet is keyed by
type:id, first seen wins, and a later discovery of an already-present key
leaves the set untouched. -/
theorem processIncluded_nodup :
    (∀ (env : Env) (reg : Reg) (fn : SerializeFn) (cls : String) (items : List RItem)
        (opts : SerializerOptions) (l : List ResourceObject),
        processIncluded env reg fn cls items opts = .ok l →
        (l.map (fun r => (r.type, r.id))).Nodup) ∧
      (∀ (acc : IncAcc) (k : String) (v w : ResourceObject),
        insertIncluded (insertIncluded acc k v) k w = insertIncluded acc k v) := by
  constructor
  · intro env reg fn cls items opts l he
    rw [processIncluded] at he
    have hfold : ∀ (its : List RItem) (acc accF : IncAcc), IncInv acc →
        its.foldlM (fun a it => procIncAux (pathsLen (opts.incl.getD []) + 1) env reg fn opts
          cls it (opts.incl.getD []) a) acc = .ok accF → IncInv accF := by
      intro its
      induction its with
      | nil =>
        intro acc accF h hf
        simp only [List.foldlM] at hf
        cases hf
        exact h
      | cons it rest ih =>
        intro acc accF h hf
        simp only [List.foldlM] at hf
        cases ha : procIncAux (pathsLen (opts.incl.getD []) + 1) env reg fn opts cls it
            (opts.incl.getD []) acc with
        | error e =>
          rw [ha] at hf
          simp only [exBind_err] at hf
          cases hf
        | ok acc1 =>
          rw [ha] at hf
          simp only [exBind_ok] at hf
          exact ih acc1 accF
            (procIncAux_inv env reg fn opts _ cls it _ acc acc1 h ha) hf
    cases hb : items.foldlM (fun a it => procIncAux (pathsLen (opts.incl.getD []) + 1) env reg
        fn opts cls it (opts.incl.getD []) a) ([] : IncAcc) with
    | error e =>
      rw [hb] at he
      cases he
    | ok accF =>
      rw [hb] at he
      cases he
      have hinv : IncInv accF := hfold items [] accF ⟨List.nodup_nil, by simp⟩ hb
      have hkeys : (accF.map (fun kv => kv.1)).Nodup := hinv.1
      have hkeys2 : (accF.map (fun kv => keyOfRO kv.2)).Nodup := by
        have : accF.map (fun kv => kv.1) = accF.map (fun kv => keyOfRO kv.2) :=
          List.map_congr_left (fun kv hkv => hinv.2 kv hkv)
        rwa [this] at hkeys
      have : ((accF.map (fun kv => kv.2)).map keyOfRO).Nodup := by
        rwa [List.map_map]
      exact nodup_map_of_nodup_map keyOfRO (fun r => (r.type, r.id)) _
        (fun x y hxy => by simp [keyOfRO, Prod.ext_iff] at hxy ⊢; rw [hxy.1, hxy.2]) this
  · exact insertIncluded_idem

/-- C4 witness: two root items sharing the same related author produce an
included array with a single entry for that author, and the pair projection
is duplicate-free; the theorem applies with its hypothesis discharged at
this concrete serialization. -/
def c4expected : ResourceObject :=
  { id := "7", type := "users", attributes := [],
    relationships := some [("profile", .one (some ("3", "profiles")))] }

theorem processIncluded_nodup_witness :
    ∃ l, processIncluded c1env [] (fun c i o => serializeItem c1env c i o) "ArticleSerializer"
        [.mk "Article" [("id", .val (.num 1)), ("author", .one c1user)],
         .mk "Article" [("id", .val (.num 2)), ("author", .one c1user)]]
        { incl := some ["author"] } = .ok l ∧
      l.map (fun r => (r.type, r.id)) = [("users", "7")] ∧
      (l.map (fun r => (r.type, r.id))).Nodup := by
  have h : processIncluded c1env [] (fun c i o => serializeItem c1env c i o) "ArticleSerializer"
      [.mk "Article" [("id", .val (.num 1)), ("author", .one c1user)],
       .mk "Article" [("id", .val (.num 2)), ("author", .one c1user)]]
      { incl := some ["author"] } = .ok [c4expected] := by rfl
  exact ⟨[c4expected], h, by decide,
    processIncluded_nodup.1 c1env [] _ "ArticleSerializer" _ _ _ h⟩

/-!
C9: parsing robustness.
-/

/-- Is a raw query value a plain string. -/
def isStrB (q : QVal) : Bool :=
  match q with
  | .str _ => true
  | .arr _ => false

theorem mem_of_assocGet {β : Type} (l : List (String × β)) (k : String) (v : β)
    (h : assocGet l k = some v) : (k, v) ∈ l := by
  induction l with
  | nil => simp [assocGet] at h
  | cons a t ih =>
    rw [assocGet_cons] at h
    by_cases hk : a.1 == k
    · rw [if_pos hk] at h
      cases h
      have hak : a.1 = k := by simpa using hk
      subst hak
      exact List.mem_cons_self a t
    · rw [if_neg hk] at h
      exact List.mem_cons_of_mem a (ih h)

theorem processIncludeOptions_ok (opts : SerializerOptions) (req : JReq)
    (hstr : req.query.all (fun kv => isStrB kv.2) = true) :
    ∃ o', processIncludeOptions opts req = .ok o' := by
  rw [processIncludeOptions]
  cases hg : assocGet req.query "include" with
  | none => exact ⟨opts, rfl⟩
  | some qv =>
    have hmem := mem_of_assocGet _ _ _ hg
    have := (List.all_eq_true.mp hstr) _ hmem
    cases qv with
    | arr items => simp [isStrB] at this
    | str s =>
      by_cases ht : qvTruthy (.str s)
      · simp only [ht, Bool.not_true, Bool.false_eq_true, if_false, qvSplit, exBind_ok]
        exact ⟨_, rfl⟩
      · simp only [Bool.not_eq_true] at ht
        simp only [ht, Bool.not_false, if_true]
        exact ⟨opts, rfl⟩

theorem processFieldOptions_ok (opts : SerializerOptions) (req : JReq)
    (hstr : req.query.all (fun kv => isStrB kv.2) = true) :
    ∃ o', processFieldOptions opts req = .ok o' := by
  rw [processFieldOptions]
  have hq := List.all_eq_true.mp hstr
  have main : ∀ (l : List (String × QVal)), (∀ kv ∈ l, isStrB kv.2 = true) →
      ∀ (acc : List (String × List String)),
      ∃ r, l.foldlM (fun acc kv => do
        if sStartsWith kv.1 "fields[" && sEndsWith kv.1 "]" then
          let resourceType := sSlice kv.1 7 (-1)
          let parts ← qvSplit kv.2 ','
          pure (assocSet acc resourceType (parts.map sTrim))
        else
          pure acc) acc = .ok r := by
    intro l
    induction l with
    | nil => exact fun _ acc => ⟨acc, rfl⟩
    | cons a t ih =>
      intro hs acc
      simp only [List.foldlM]
      by_cases hb : sStartsWith a.1 "fields[" && sEndsWith a.1 "]"
      · cases hqa : a.2 with
        | arr items =>
          have hsa := hs a (List.mem_cons_self a t)
          rw [hqa] at hsa
          simp [isStrB] at hsa
        | str s =>
          simp only [hb, if_true, hqa, qvSplit, exPure_eq, exBind_ok]
          exact ih (fun kv hkv => hs kv (List.mem_cons_of_mem a hkv)) _
      · simp only [hb, Bool.false_eq_true, if_false, exPure_eq, exBind_ok]
        exact ih (fun kv hkv => hs kv (List.mem_cons_of_mem a hkv)) _
  rcases main req.query hq (opts.fields.getD []) with ⟨r, hr⟩
  rw [hr]
  exact ⟨_, rfl⟩

theorem processSortOptions_ok (opts : SerializerOptions) (req : JReq)
    (hstr : req.query.all (fun kv => isStrB kv.2) = true) :
    ∃ o', processSortOptions opts req = .ok o' := by
  rw [processSortOptions]
  cases hg : assocGet req.query "sort" with
  | none => exact ⟨opts, rfl⟩
  | some qv =>
    have hmem := mem_of_assocGet _ _ _ hg
    have := (List.all_eq_true.mp hstr) _ hmem
    cases qv with
    | arr items => simp [isStrB] at this
    | str s =>
      by_cases ht : qvTruthy (.str s)
      · simp only [ht, Bool.not_true, Bool.false_eq_true, if_false, qvSplit, exBind_ok]
        exact ⟨_, rfl⟩
      · simp only [Bool.not_eq_true] at ht
        simp only [ht, Bool.not_false, if_true]
        exact ⟨opts, rfl⟩

/-- C9 amended: query-plan parsing never throws as long as every parameter
value is a plain string, malformed bracket keys being dropped silently, as
the concrete malformed-key query illustrates (only the unconditional
field-selection map initialization distinguishes the parse from the empty
options). On a non-string value for include, sort or a fields[...] key the
parse throws a TypeError, so the claim as stated over values of any shape
fails. -/
theorem getAutoOptions_no_throw :
    (∀ (req : JReq) (existing : Option SerializerOptions),
        req.query.all (fun kv => isStrB kv.2) = true →
        (getAutoOptions (some req) existing).isOk = true) ∧
      getAutoOptions (some { query := [("filter[status", .str "1"), ("fields[a", .str "x"),
          ("page[", .str "2"), ("sort[]", .str "y")] }) none
        = .ok { fields := some [] } := by
  constructor
  · intro req existing hstr
    rw [getAutoOptions]
    rcases processIncludeOptions_ok (existing.getD {}) req hstr with ⟨o1, h1⟩
    rw [h1]
    simp only [exBind_ok]
    rcases processFieldOptions_ok o1 req hstr with ⟨o2, h2⟩
    rw [h2]
    simp only [exBind_ok]
    rcases processSortOptions_ok (processPaginationOptions o2 req) req hstr with ⟨o4, h4⟩
    rw [h4]
    simp only [exBind_ok, exPure_eq]
    rfl
  · rfl

/-- C9 witness: a well-formed all-string query parses without throwing. -/
theorem getAutoOptions_no_throw_witness :
    ([("include", QVal.str "author"), ("sort", QVal.str "-a,b"),
        ("filter[x][gte]", QVal.str "1"), ("page[size]", QVal.str "10")].all
      (fun kv => isStrB kv.2) = true) ∧
      (getAutoOptions (some { query := [("include", .str "author"), ("sort", .str "-a,b"),
          ("filter[x][gte]", .str "1"), ("page[size]", .str "10")] }) none).isOk = true :=
  ⟨by decide, getAutoOptions_no_throw.1
    { query := [("include", .str "author"), ("sort", .str "-a,b"),
        ("filter[x][gte]", .str "1"), ("page[size]", .str "10")] } none (by decide)⟩

/-- C9 counterexample: an array-valued include parameter (a repeated include
query key) makes the parse throw a TypeError from split, so parsing does not
degrade by omission for values of arbitrary shape. -/
theorem getAutoOptions_throws_on_array :
    (getAutoOptions (some { query := [("include", .arr ["a", "b"])] }) none).isOk = false := by
  decide

/-!
C2: offset pagination.
-/

theorem jsSliceList_nonneg {α : Type} (l : List α) (a b : Int) (ha : 0 ≤ a) (hab : a ≤ b) :
    jsSliceList l a b = (l.drop a.toNat).take (b - a).toNat := by
  unfold jsSliceList
  have hb : 0 ≤ b := le_trans ha hab
  simp only [not_lt.mpr ha, if_false, not_lt.mpr hb]
  by_cases han : a ≤ (l.length : Int)
  · have hmina : min a (l.length : Int) = a := min_eq_left han
    rw [hmina]
    by_cases hbn : b ≤ (l.length : Int)
    · have hminb : min b (l.length : Int) = b := min_eq_left hbn
      rw [hminb]
      congr 1
      omega
    · have hminb : min b (l.length : Int) = (l.length : Int) := min_eq_right (by omega)
      rw [hminb]
      have hlen : ((l.length : Int).toNat - a.toNat) = (l.drop a.toNat).length := by
        rw [List.length_drop]
        omega
      rw [hlen, List.take_length]
      have : (l.drop a.toNat).length ≤ (b - a).toNat := by
        rw [List.length_drop]
        omega
      exact (List.take_of_length_le this).symm
  · have hmina : min a (l.length : Int) = (l.length : Int) := min_eq_right (by omega)
    have hminb : min b (l.length : Int) = (l.length : Int) := min_eq_right (by omega)
    rw [hmina, hminb]
    have h1 : l.drop (l.length : Int).toNat = [] := List.drop_eq_nil_of_le (by omega)
    have h2 : l.drop a.toNat = [] := List.drop_eq_nil_of_le (by omega)
    rw [h1, h2]
    simp

/-- C2: offset pagination with 1-based page p and positive size s slices the
collection to the indices from (p-1)s inclusive to ps exclusive; with totals
requested the metadata reports the current page, from = (p-1)s+1,
to = min(ps, n), per-page s, total n, and a last page lp characterized as
the ceiling of n/s by (lp-1)s < n and n ≤ lp·s; the prev link is present
exactly when p exceeds 1 and the next link exactly when p is below the last
page. -/
theorem applyPagination_offset_spec (req : Option JReq) (l : List RItem) (p s : Int)
    (hp : 1 ≤ p) (hs : 1 ≤ s) :
    ∃ r, applyPagination req l
        { number := some (some p), size := some (some s), count := true } = .ok r
      ∧ r.data = (l.drop ((p - 1) * s).toNat).take s.toNat
      ∧ r.meta.currentPage = some (some p)
      ∧ r.meta.fromIdx = some (some ((p - 1) * s + 1))
      ∧ r.meta.perPage = some (some s)
      ∧ r.meta.toIdx = some (some (min (p * s) (l.length : Int)))
      ∧ r.meta.total = some (some (l.length : Int))
      ∧ ∃ lp : Int, r.meta.lastPage = some (some lp)
          ∧ (lp - 1) * s < (l.length : Int) ∧ (l.length : Int) ≤ lp * s
          ∧ (r.links.prev.isSome = true ↔ 1 < p)
          ∧ (r.links.next.isSome = true ↔ p < lp) := by
  have h0 : (0 : Int) < s := by omega
  have hs0 : s ≠ 0 := by omega
  set n : Int := (l.length : Int) with hn
  have hn0 : 0 ≤ n := by positivity
  set lp : Int := (n + s - 1).fdiv s with hlp
  have hfd : (n + s - 1).fdiv s = (n + s - 1) / s := Int.fdiv_eq_ediv _ (by omega)
  have hdm := Int.ediv_add_emod (n + s - 1) s
  have hrnn : 0 ≤ (n + s - 1) % s := Int.emod_nonneg _ hs0
  have hrlt : (n + s - 1) % s < s := Int.emod_lt_of_pos _ h0
  have hlow : (lp - 1) * s < n := by
    have : s * ((n + s - 1) / s) = n + s - 1 - (n + s - 1) % s := by omega
    rw [hlp, hfd]
    nlinarith [this]
  have hhigh : n ≤ lp * s := by
    have : s * ((n + s - 1) / s) = n + s - 1 - (n + s - 1) % s := by omega
    rw [hlp, hfd]
    nlinarith [this]
  rw [applyPagination]
  simp only [Option.isSome_some, Bool.and_self, if_true]
  refine ⟨_, rfl, ?_, rfl, rfl, rfl, rfl, rfl, lp, ?_, hlow, hhigh, ?_, ?_⟩
  · show jsSliceList l (jnToIntOrZero (jnMul (jnSub (some p) (some 1)) (some s)))
        (jnToIntOrZero (jnMul (some p) (some s))) = _
    have e1 : jnToIntOrZero (jnMul (jnSub (some p) (some 1)) (some s)) = (p - 1) * s := rfl
    have e2 : jnToIntOrZero (jnMul (some p) (some s)) = p * s := rfl
    rw [e1, e2, jsSliceList_nonneg l _ _ (by nlinarith) (by nlinarith)]
    congr 1
    have : p * s - (p - 1) * s = s := by ring
    rw [this]
  · show some (jnCeilDivPos (some n) (some s)) = some (some lp)
    simp [jnCeilDivPos, h0, hlp]
  · show (if jnGtB (some p) (some 1) then some (createPageLink req (jnSub (some p) (some 1)))
        else none).isSome = true ↔ 1 < p
    simp [jnGtB]
  · show (if jnLtB (some p) (jnCeilDivPos (some n) (some s)) then
        some (createPageLink req (jnAdd (some p) (some 1))) else none).isSome = true ↔ p < lp
    simp [jnLtB, jnCeilDivPos, h0, hlp]

def c2items : List RItem :=
  (List.range 48).map (fun i => RItem.mk "Article" [("id", .val (.num (i : Int)))])

/-- C2 witness: 48 items, size 10, page 2 give meta.from 11, meta.to 20,
last page 5 and both prev and next links. -/
theorem applyPagination_offset_spec_witness :
    ∃ r, applyPagination none c2items
        { number := some (some 2), size := some (some 10), count := true } = .ok r
      ∧ r.meta.fromIdx = some (some 11)
      ∧ r.meta.toIdx = some (some 20)
      ∧ r.meta.lastPage = some (some 5)
      ∧ r.links.prev.isSome = true
      ∧ r.links.next.isSome = true := by
  obtain ⟨r, hr, hdata, hcp, hfrom, hpp, hto, htot, lp, hlp, hlow, hhigh, hprev, hnext⟩ :=
    applyPagination_offset_spec none c2items 2 10 (by omega) (by omega)
  have hlen : (c2items.length : Int) = 48 := by decide
  rw [hlen] at hto hlow hhigh
  have hlp5 : lp = 5 := by omega
  refine ⟨r, hr, ?_, ?_, ?_, ?_, ?_⟩
  · rw [hfrom]
    norm_num
  · rw [hto]
    norm_num
  · rw [hlp, hlp5]
  · exact hprev.mpr (by omega)
  · exact hnext.mpr (by omega)

/-!
C3: cursor pagination with an after token.
-/

/-- The pure content of the findIndex predicate of the after branch: does the
item id, as a string, equal the cursor value (an absent or null id never
matches here; the effectful version throws on those instead, which the
theorems exclude). -/
def cursorMatch (cid : Option String) (it : RItem) : Bool :=
  match jsGet it "id" with
  | none => false
  | some .jnull => false
  | some p => some (jsToStringRP p) == cid

/-- Does an item own a non-null id property (so that id.toString() cannot
throw). -/
def idDefinedB (it : RItem) : Bool :=
  match jsGet it "id" with
  | none => false
  | some .jnull => false
  | some _ => true

theorem findIndexAux_pure (cid : Option String) (l : List RItem)
    (h : l.all idDefinedB = true) (i : Int) :
    findIndexAux (fun it => idToStringE it >>= fun sid => Except.ok (some sid == cid)) l i
      = .ok (match l.findIdx? (cursorMatch cid) with
             | some k => i + (k : Int)
             | none => -1) := by
  induction l generalizing i with
  | nil => simp [findIndexAux]
  | cons x rest ih =>
    simp only [List.all_cons, Bool.and_eq_true] at h
    have hx := h.1
    rw [findIndexAux]
    cases hg : jsGet x "id" with
    | none => simp [idDefinedB, hg] at hx
    | some p =>
      have hstr : idToStringE x = .ok (jsToStringRP p) := by
        cases p with
        | jnull => simp [idDefinedB, hg] at hx
        | val v => simp [idToStringE, hg]
        | one it2 => simp [idToStringE, hg]
        | many its => simp [idToStringE, hg]
      have hcm : cursorMatch cid x = (some (jsToStringRP p) == cid) := by
        cases p with
        | jnull => simp [idDefinedB, hg] at hx
        | val v => simp [cursorMatch, hg]
        | one it2 => simp [cursorMatch, hg]
        | many its => simp [cursorMatch, hg]
      show (idToStringE x >>= fun sid => Except.ok (some sid == cid)) >>=
          (fun b => if b then Except.ok i else findIndexAux
            (fun it => idToStringE it >>= fun sid => Except.ok (some sid == cid)) rest (i + 1))
        = _
      rw [hstr]
      simp only [exBind_ok]
      rw [show (x :: rest).findIdx? (cursorMatch cid)
          = if cursorMatch cid x then some 0 else rest.findIdx? (cursorMatch cid) 1 from rfl]
      rw [hcm]
      by_cases hb : (some (jsToStringRP p) == cid) = true
      · simp only [hb, if_true]
        norm_num
      · simp only [Bool.not_eq_true] at hb
        simp only [hb, if_false, Bool.false_eq_true]
        rw [List.findIdx?_start_succ, ih h.2 (i + 1)]
        cases hf : rest.findIdx? (cursorMatch cid) 0 with
        | none => simp [hf]
        | some k =>
          simp [hf]
          omega

/-- C3: cursor pagination with an after token: only the portion of the token
after the first colon (the identifier of a type:id pair) is the cursor
value; when some item id stringifies to that value, the returned slice
starts right after the first such item and takes the requested size; when no
item matches, the slice starts at index zero. Hypotheses: positive requested
size, a truthy token, and an id present on every item (otherwise the JS code
throws from id.toString). -/
theorem applyPagination_cursor_spec (req : Option JReq) (l : List RItem) (tok : String)
    (sz : Int) (hsz : 0 < sz) (htok : tok ≠ "") (hid : l.all idDefinedB = true) :
    (∀ k : Nat, l.findIdx? (cursorMatch ((sSplit tok ':').get? 1)) = some k →
        ∃ r, applyPagination req l { size := some (some sz), after := some (.strv tok) } = .ok r
          ∧ r.data = (l.drop (k + 1)).take sz.toNat)
    ∧ (l.findIdx? (cursorMatch ((sSplit tok ':').get? 1)) = none →
        ∃ r, applyPagination req l { size := some (some sz), after := some (.strv tok) } = .ok r
          ∧ r.data = l.take sz.toNat) := by
  have h1 : fsTruthyOpt (some (FilterStored.strv tok)) = true := by
    simp [fsTruthyOpt, fsTruthy, htok]
  have hne : (sz == 0) = false := by
    simp only [beq_eq_false_iff_ne, ne_eq]
    omega
  constructor
  · intro k hk
    rw [applyPagination]
    simp only [Option.isSome_none, Bool.false_and, Bool.and_self, if_false, h1, Bool.or_self,
      Option.isSome_some, Bool.true_or, if_true, hne, Option.getD_some, Bool.false_eq_true,
      Option.getD_none, exPure_eq]
    rw [findIndexAux_pure ((sSplit tok ':').get? 1) l hid 0]
    rw [hk]
    simp only [exBind_ok]
    have hne2 : (((0 : Int) + (k : Int)) != -1) = true := by
      simp only [bne_iff_ne, ne_eq]
      omega
    simp only [hne2, if_true]
    have hslice : jsSliceList l (0 + (k : Int) + 1) ((0 + (k : Int) + 1) + sz)
        = (l.drop (k + 1)).take sz.toNat := by
      have e1 : ((0 : Int) + (k : Int) + 1).toNat = k + 1 := by omega
      have e2 : (((0 : Int) + (k : Int) + 1 + sz) - (0 + (k : Int) + 1)).toNat = sz.toNat := by
        omega
      rw [jsSliceList_nonneg l _ _ (by omega) (by omega), e1, e2]
    rw [hslice]
    have hkl : k < l.length := (List.findIdx?_eq_some_iff_findIdx_eq.mp hk).1
    cases hc : (l.drop (k + 1)).take sz.toNat with
    | nil => exact ⟨_, rfl, rfl⟩
    | cons h t =>
      dsimp only
      have hidx : (0 ⊔ ((0 : Int) + (k : Int) + 1 - sz)).toNat < l.length := by
        have hub : ((0 : Int) ⊔ ((0 : Int) + (k : Int) + 1 - sz)) ≤ (k : Int) :=
          sup_le (by omega) (by omega)
        have := Int.toNat_le_toNat hub
        simp only [Int.toNat_natCast] at this
        omega
      have hget : ∃ x, l.get? (0 ⊔ ((0 : Int) + (k : Int) + 1 - sz)).toNat = some x := by
        cases hg : l.get? (0 ⊔ ((0 : Int) + (k : Int) + 1 - sz)).toNat with
        | none =>
          exfalso
          have := List.get?_eq_none.mp hg
          omega
        | some x => exact ⟨x, rfl⟩
      obtain ⟨x, hx⟩ := hget
      by_cases hlt : (0 + (k : Int) + 1) + sz < (l.length : Int)
      · rw [if_pos hlt, if_pos (by omega : (0 : Int) + (k : Int) + 1 > 0)]
        rw [hx]
        exact ⟨_, rfl, rfl⟩
      · rw [if_neg hlt, if_pos (by omega : (0 : Int) + (k : Int) + 1 > 0)]
        rw [hx]
        exact ⟨_, rfl, rfl⟩
  · intro hk
    rw [applyPagination]
    simp only [Option.isSome_none, Bool.false_and, Bool.and_self, if_false, h1, Bool.or_self,
      Option.isSome_some, Bool.true_or, if_true, hne, Option.getD_some, Bool.false_eq_true,
      Option.getD_none, exPure_eq]
    rw [findIndexAux_pure ((sSplit tok ':').get? 1) l hid 0]
    rw [hk]
    simp only [exBind_ok]
    have hne2 : (((-1) : Int) != -1) = false := by simp
    simp only [hne2, Bool.false_eq_true, if_false]
    have hslice : jsSliceList l 0 (0 + sz) = l.take sz.toNat := by
      have e2 : (((0 : Int) + sz) - 0).toNat = sz.toNat := by omega
      rw [jsSliceList_nonneg l _ _ (by omega) (by omega), e2]
      simp
    rw [hslice]
    cases hc : l.take sz.toNat with
    | nil => exact ⟨_, rfl, rfl⟩
    | cons h t =>
      dsimp only
      by_cases hlt : ((0 : Int)) + sz < (l.length : Int)
      · rw [if_pos hlt, if_neg (by omega : ¬((0 : Int) > 0))]
        exact ⟨_, rfl, rfl⟩
      · rw [if_neg hlt, if_neg (by omega : ¬((0 : Int) > 0))]
        exact ⟨_, rfl, rfl⟩

def c3items : List RItem :=
  (List.range 25).map (fun i => RItem.mk "Article" [("id", .val (.num ((114 + i : Nat) : Int)))])

/-- C3 witness: page[after]=article:123 with size 15 on 25 items where the
item with id 123 sits at index 9 returns the items at indices 10 to 24. -/
theorem applyPagination_cursor_spec_witness :
    c3items.all idDefinedB = true ∧
      c3items.findIdx? (cursorMatch ((sSplit "article:123" ':').get? 1)) = some 9 ∧
      ∃ r, applyPagination none c3items
          { size := some (some 15), after := some (.strv "article:123") } = .ok r
        ∧ r.data = (c3items.drop 10).take 15 := by
  refine ⟨by decide, by decide, ?_⟩
  obtain ⟨r, hr, hd⟩ := (applyPagination_cursor_spec none c3items "article:123" 15
    (by norm_num) (by decide) (by decide)).1 9 (by decide)
  exact ⟨r, hr, hd⟩

/-!
C6: sparse fieldsets touch only the attribute map.
-/

theorem filter_assocSet_pos {β : Type} (P : String → Bool) (l : List (String × β))
    (k : String) (v : β) (h : P k = true) :
    (assocSet l k v).filter (fun kv => P kv.1) = assocSet (l.filter (fun kv => P kv.1)) k v := by
  induction l with
  | nil => simp [assocSet, h]
  | cons a t ih =>
    by_cases hk : a.1 == k
    · have hak : a.1 = k := by simpa using hk
      simp only [assocSet, hk, if_true]
      rw [List.filter_cons, List.filter_cons]
      simp only [hak, h, if_true]
      simp [assocSet, hak]
    · simp only [assocSet, hk, Bool.false_eq_true, if_false]
      rw [List.filter_cons, List.filter_cons]
      by_cases hp : P a.1
      · simp only [hp, if_true]
        rw [ih]
        simp [assocSet, hk]
      · simp only [hp, Bool.false_eq_true, if_false]
        exact ih

theorem filter_assocSet_neg {β : Type} (P : String → Bool) (l : List (String × β))
    (k : String) (v : β) (h : P k = false) :
    (assocSet l k v).filter (fun kv => P kv.1) = l.filter (fun kv => P kv.1) := by
  induction l with
  | nil => simp [assocSet, h]
  | cons a t ih =>
    by_cases hk : a.1 == k
    · have hak : a.1 = k := by simpa using hk
      simp only [assocSet, hk, if_true]
      rw [List.filter_cons, List.filter_cons]
      simp [hak, h]
    · simp only [assocSet, hk, Bool.false_eq_true, if_false]
      rw [List.filter_cons, List.filter_cons]
      by_cases hp : P a.1
      · simp only [hp, if_true, ih]
      · simp only [hp, Bool.false_eq_true, if_false]
        exact ih

theorem attrs_fold_filter (item : RItem) (prm : Option Params) (af : List String)
    (attrs : List AttrMeta) :
    ∀ acc : List (String × Option RProp),
      attrs.foldl (fun result attr =>
        if !(af.contains attr.name) then result
        else if (match attr.condition with | some c => !(c item prm) | none => false) then result
        else assocSet result attr.name (jsGet item attr.property))
        (acc.filter (fun kv => af.contains kv.1))
      = (attrs.foldl (fun result attr =>
          if (match attr.condition with | some c => !(c item prm) | none => false) then result
          else assocSet result attr.name (jsGet item attr.property)) acc).filter
          (fun kv => af.contains kv.1) := by
  induction attrs with
  | nil => intro acc; simp
  | cons attr rest ih =>
    intro acc
    simp only [List.foldl_cons]
    by_cases hmem : af.contains attr.name = true
    · rw [if_neg (by rw [hmem]; decide)]
      by_cases hcond : (match attr.condition with | some c => !(c item prm) | none => false)
          = true
      · rw [if_pos hcond, if_pos hcond]
        exact ih acc
      · rw [if_neg hcond, if_neg hcond]
        rw [← filter_assocSet_pos (fun s => af.contains s) acc attr.name _ hmem]
        exact ih (assocSet acc attr.name (jsGet item attr.property))
    · have hm2 : af.contains attr.name = false := by simpa using hmem
      rw [if_pos (by rw [hm2]; decide)]
      by_cases hcond : (match attr.condition with | some c => !(c item prm) | none => false)
          = true
      · rw [if_pos hcond]
        exact ih acc
      · rw [if_neg hcond]
        rw [← filter_assocSet_neg (fun s => af.contains s) acc attr.name
          (jsGet item attr.property) hm2]
        exact ih (assocSet acc attr.name (jsGet item attr.property))

theorem getAttributes_fields (env : Env) (cls : String) (m : SerMeta) (item : RItem)
    (o : SerializerOptions) (fm : List (String × List String))
    (hm : assocGet env cls = some m) :
    ∃ A, getAttributes env cls item { o with fields := none } = .ok A
      ∧ getAttributes env cls item { o with fields := some fm }
          = .ok (A.filter (fun kv =>
              match assocGet fm m.tyName with
              | none => true
              | some af => af.contains kv.1)) := by
  rw [getAttributes, getAttributes, hm]
  dsimp only
  cases haf : assocGet fm m.tyName with
  | none =>
    refine ⟨_, rfl, ?_⟩
    dsimp only
    simp
  | some af =>
    refine ⟨_, rfl, ?_⟩
    dsimp only
    exact congrArg Except.ok (by simpa using attrs_fold_filter item o.params af m.attrs [])

/-- C6 amended: supplying field selection changes only the attributes member
of each serialized resource object: the result equals the no-field-selection
result with its attribute map filtered to the allowed names for this
resource type (so the key set is the intersection of the allowed names with
the keys visible without field selection), while id, type, relationships and
the error behavior are untouched; a fields map without an entry for this
type leaves even the attributes untouched. -/
theorem serializeItem_fields_frame (env : Env) (cls : String) (m : SerMeta) (item : RItem)
    (o : SerializerOptions) (fm : List (String × List String))
    (hm : assocGet env cls = some m) :
    serializeItem env cls item { o with fields := some fm }
      = (serializeItem env cls item { o with fields := none }).map (fun r =>
          { r with attributes := r.attributes.filter (fun kv =>
              match assocGet fm m.tyName with
              | none => true
              | some af => af.contains kv.1) }) := by
  obtain ⟨A, hA, hAW⟩ := getAttributes_fields env cls m item o fm hm
  have hrel : getRelationships env cls item { o with fields := some fm }
      = getRelationships env cls item { o with fields := none } := rfl
  rw [serializeItem, serializeItem, hm]
  dsimp only
  cases hraw : (match m.idRule with
      | IdRule.fn f => some (f item o.params)
      | IdRule.fieldName f =>
        match jsGet item f with
        | some p => if jsTruthyRP p then some (jsToStringRP p) else none
        | none => none) with
  | none => rfl
  | some s =>
    dsimp only
    by_cases hs : (s == "") = true
    · rw [if_pos hs, if_pos hs]
      rfl
    · rw [if_neg hs, if_neg hs]
      simp only [exPure_eq, exBind_ok]
      rw [hAW, hA, hrel]
      simp only [exBind_ok]
      cases hrels : getRelationships env cls item { o with fields := none } with
      | error e => cases e <;> rfl
      | ok rels => rfl

def c6env : Env :=
  [("PostSerializer",
    { tyName := "posts",
      attrs := [{ name := "a", property := "a", condition := some (fun _ _ => false) }] })]

def c6item : RItem := .mk "Post" [("id", .val (.num 1)), ("a", .val (.str "x"))]

/-- C6 counterexample: with fields[posts]=[a] and a declared attribute a
whose visibility predicate rejects the item, the produced attribute map is
empty although the claim prescribes exactly the declared intersection, which
is the singleton a: field selection intersects with the visible attributes,
not with all declared ones. -/
theorem c6_condition_counterexample :
    getAttributes c6env "PostSerializer" c6item { fields := some [("posts", ["a"])] }
        = .ok ([] : List (String × Option RProp))
      ∧ (match assocGet c6env "PostSerializer" with
          | some m => m.attrs.map (fun a => a.name)
          | none => []) = ["a"] :=
  ⟨rfl, rfl⟩

def c6wmeta : SerMeta :=
  { tyName := "posts",
    attrs := [{ name := "a", property := "a" }, { name := "b", property := "b" }] }

def c6wenv : Env := [("PostSerializer", c6wmeta)]

def c6witem : RItem :=
  .mk "Post" [("id", .val (.num 1)), ("a", .val (.str "x")), ("b", .val (.num 2))]

/-- C6 witness: the frame theorem applied at a concrete two-attribute
serializer with fields[posts]=[a]. -/
theorem serializeItem_fields_frame_witness :
    serializeItem c6wenv "PostSerializer" c6witem
        { ({} : SerializerOptions) with fields := some [("posts", ["a"])] }
      = (serializeItem c6wenv "PostSerializer" c6witem
          { ({} : SerializerOptions) with fields := none }).map (fun r =>
          { r with attributes := r.attributes.filter (fun kv =>
              match assocGet [("posts", ["a"])] c6wmeta.tyName with
              | none => true
              | some af => af.contains kv.1) }) :=
  serializeItem_fields_frame c6wenv "PostSerializer" c6wmeta c6witem {}
    [("posts", ["a"])] rfl

/-- A sort-key field holds a string on the item. -/
def isStrKey (x : RItem) (f : String) : Bool :=
  match toPrimOpt (jsGet x f) with
  | .pstr _ => true
  | _ => false

/-- A sort-key field holds a genuine (non-NaN) number on the item. -/
def isNumKey (x : RItem) (f : String) : Bool :=
  match toPrimOpt (jsGet x f) with
  | .pnum (some _) => true
  | _ => false

/-- A sort key is type-homogeneous on a collection: the field holds a string
on every item, or a genuine number on every item. On such keys the JS
comparator is a consistent (transitive and total) comparison; a key mixing
strings and numbers is genuinely inconsistent (for example "10", 9, "2":
10 > 9, 2 < 9, yet "10" < "2" lexicographically), as is a key producing
NaN, and ES2019 then leaves the sort order implementation-defined. -/
def keyConsistent (data : List RItem) (k : SortKey) : Bool :=
  data.all (fun x => isStrKey x k.field) || data.all (fun x => isNumKey x k.field)

/-- The string value of a sort-key field (empty when not a string; only
used under isStrKey). -/
def strKeyOf (x : RItem) (f : String) : String :=
  match toPrimOpt (jsGet x f) with
  | .pstr s => s
  | _ => ""

/-- The numeric value of a sort-key field (0 when absent or non-numeric;
only used under isNumKey). -/
def numKeyOf (x : RItem) (f : String) : Int :=
  match toPrimOpt (jsGet x f) with
  | .pnum (some n) => n
  | _ => 0

/-- A sort-key value: a string or a number. -/
inductive SKey : Type where
  | sk (v : String)
  | nk (v : Int)
  deriving Repr, DecidableEq

/-- Total comparison on sort-key values: strings and numbers compare within
their kind; across kinds, strings sort first (arbitrarily, but totally and
transitively; homogeneous keys never exercise the cross-kind cases). -/
def skeyCmp (a b : SKey) : Ordering :=
  match a, b with
  | .sk u, .sk v => compare u v
  | .nk m, .nk n => compare m n
  | .sk _, .nk _ => .lt
  | .nk _, .sk _ => .gt

/-- The sort-key value of an item at a field (NaN and undefined collapse to
0; only used on homogeneous keys). -/
def keyOf (x : RItem) (f : String) : SKey :=
  match toPrimOpt (jsGet x f) with
  | .pstr s => .sk s
  | .pnum (some n) => .nk n
  | .pnum none => .nk 0

/-- Direction adjustment of a comparison outcome. -/
def dirOrd (d : SortDir) (o : Ordering) : Ordering :=
  match d with
  | .asc => o
  | .desc => o.swap

/-- Lexicographic less-or-equal on items under a sort list: keys tried in
order, the first non-equal key deciding, each in its own direction. -/
def slexLe (sort : List SortKey) (x y : RItem) : Bool :=
  match sort with
  | [] => true
  | k :: rest =>
    match dirOrd k.direction (skeyCmp (keyOf x k.field) (keyOf y k.field)) with
    | .lt => true
    | .gt => false
    | .eq => slexLe rest x y

theorem compare_swap_eq {A : Type} [LinearOrder A] (a b : A) :
    compare b a = (compare a b).swap := by
  rcases lt_trichotomy a b with h | h | h
  · rw [compare_gt_iff_gt.mpr h, compare_lt_iff_lt.mpr h]
    rfl
  · subst h
    rw [compare_eq_iff_eq.mpr rfl]
    rfl
  · rw [compare_lt_iff_lt.mpr h, compare_gt_iff_gt.mpr h]
    rfl

theorem skeyCmp_swap (a b : SKey) : skeyCmp b a = (skeyCmp a b).swap := by
  cases a <;> cases b <;> simp only [skeyCmp] <;>
    first
      | rfl
      | exact compare_swap_eq _ _

theorem skeyCmp_eq_iff (a b : SKey) : skeyCmp a b = .eq ↔ a = b := by
  cases a <;> cases b <;> simp [skeyCmp, compare_eq_iff_eq]

theorem skeyCmp_lt_trans {a b c : SKey}
    (h1 : skeyCmp a b = .lt) (h2 : skeyCmp b c = .lt) : skeyCmp a c = .lt := by
  cases a <;> cases b <;> cases c <;> simp only [skeyCmp] at h1 h2 ⊢ <;>
    first
      | rfl
      | exact Ordering.noConfusion h1
      | exact Ordering.noConfusion h2
      | exact compare_lt_iff_lt.mpr
          (lt_trans (compare_lt_iff_lt.mp h1) (compare_lt_iff_lt.mp h2))

theorem slexLe_total (sort : List SortKey) :
    ∀ x y : RItem, (slexLe sort x y || slexLe sort y x) = true := by
  induction sort with
  | nil => intro x y; rfl
  | cons k rest ih =>
    intro x y
    simp only [slexLe]
    rw [skeyCmp_swap (keyOf x k.field) (keyOf y k.field)]
    cases hc : skeyCmp (keyOf x k.field) (keyOf y k.field) <;>
      cases hd : k.direction <;>
        simp only [dirOrd, Ordering.swap] <;>
          first
            | rfl
            | exact ih x y

theorem slexLe_trans (sort : List SortKey) :
    ∀ x y z : RItem, slexLe sort x y = true → slexLe sort y z = true →
      slexLe sort x z = true := by
  induction sort with
  | nil => intro x y z _ _; rfl
  | cons k rest ih =>
    intro x y z hxy hyz
    simp only [slexLe] at hxy hyz ⊢
    cases hcxy : skeyCmp (keyOf x k.field) (keyOf y k.field) with
    | eq =>
      have he := (skeyCmp_eq_iff _ _).mp hcxy
      rw [hcxy] at hxy
      rw [he]
      cases hcyz : skeyCmp (keyOf y k.field) (keyOf z k.field) <;>
        rw [hcyz] at hyz <;>
          cases hd : k.direction <;>
            rw [hd] at hxy hyz <;>
              simp only [dirOrd, Ordering.swap] at hxy hyz ⊢ <;>
                first
                  | rfl
                  | exact hyz
                  | exact ih x y z hxy hyz
    | lt =>
      rw [hcxy] at hxy
      cases hcyz : skeyCmp (keyOf y k.field) (keyOf z k.field) with
      | eq =>
        have he := (skeyCmp_eq_iff _ _).mp hcyz
        rw [← he, hcxy]
        cases hd : k.direction <;> rw [hd] at hxy <;>
          simp only [dirOrd, Ordering.swap] at hxy ⊢ <;>
            first
              | rfl
              | exact hxy
      | lt =>
        rw [hcyz] at hyz
        rw [skeyCmp_lt_trans hcxy hcyz]
        cases hd : k.direction <;> rw [hd] at hxy <;>
          simp only [dirOrd, Ordering.swap] at hxy ⊢ <;>
            first
              | rfl
              | exact hxy
      | gt =>
        rw [hcyz] at hyz
        cases hd : k.direction <;> rw [hd] at hxy hyz <;>
          simp only [dirOrd, Ordering.swap] at hxy hyz <;>
            first
              | exact Bool.noConfusion hxy
              | exact Bool.noConfusion hyz
    | gt =>
      rw [hcxy] at hxy
      cases hcyz : skeyCmp (keyOf y k.field) (keyOf z k.field) with
      | eq =>
        have he := (skeyCmp_eq_iff _ _).mp hcyz
        rw [← he, hcxy]
        cases hd : k.direction <;> rw [hd] at hxy <;>
          simp only [dirOrd, Ordering.swap] at hxy ⊢ <;>
            first
              | rfl
              | exact hxy
      | lt =>
        rw [hcyz] at hyz
        cases hd : k.direction <;> rw [hd] at hxy hyz <;>
          simp only [dirOrd, Ordering.swap] at hxy hyz <;>
            first
              | exact Bool.noConfusion hxy
              | exact Bool.noConfusion hyz
      | gt =>
        rw [hcyz] at hyz
        have hgt : skeyCmp (keyOf x k.field) (keyOf z k.field) = .gt := by
          have q1 : skeyCmp (keyOf y k.field) (keyOf x k.field) = .lt := by
            rw [skeyCmp_swap, hcxy]; rfl
          have q2 : skeyCmp (keyOf z k.field) (keyOf y k.field) = .lt := by
            rw [skeyCmp_swap, hcyz]; rfl
          have q3 := skeyCmp_lt_trans q2 q1
          rw [skeyCmp_swap, q3]
          rfl
        rw [hgt]
        cases hd : k.direction <;> rw [hd] at hxy hyz <;>
          simp only [dirOrd, Ordering.swap] at hxy hyz ⊢ <;>
            first
              | rfl
              | exact Bool.noConfusion hxy
              | exact Bool.noConfusion hyz

theorem isStrKey_spec (x : RItem) (f : String) (h : isStrKey x f = true) :
    toPrimOpt (jsGet x f) = .pstr (strKeyOf x f) := by
  unfold isStrKey at h
  unfold strKeyOf
  cases hx : toPrimOpt (jsGet x f) with
  | pstr s => rfl
  | pnum n => rw [hx] at h; simp at h

theorem isNumKey_spec (x : RItem) (f : String) (h : isNumKey x f = true) :
    toPrimOpt (jsGet x f) = .pnum (some (numKeyOf x f)) := by
  unfold isNumKey at h
  unfold numKeyOf
  cases hx : toPrimOpt (jsGet x f) with
  | pstr s => rw [hx] at h; simp at h
  | pnum n =>
    rw [hx] at h
    cases n with
    | none => simp at h
    | some m => rfl

/-- On items of a collection whose sort keys are all type-homogeneous, the
JS comparator being nonpositive is exactly the lexicographic key order. -/
theorem sortComparator_le_eq_slexLe (data : List RItem) (sort : List SortKey)
    (hcons : sort.all (keyConsistent data) = true) (x y : RItem)
    (hx : x ∈ data) (hy : y ∈ data) :
    decide (sortComparator sort x y ≤ 0) = slexLe sort x y := by
  induction sort with
  | nil => rfl
  | cons k rest ih =>
    rw [List.all_cons, Bool.and_eq_true] at hcons
    have ihr := ih hcons.2
    have hk := hcons.1
    rw [keyConsistent, Bool.or_eq_true] at hk
    rw [sortComparator, slexLe]
    rcases hk with hks | hkn
    · have hpx := isStrKey_spec x k.field (List.all_eq_true.mp hks x hx)
      have hpy := isStrKey_spec y k.field (List.all_eq_true.mp hks y hy)
      have hkx : keyOf x k.field = .sk (strKeyOf x k.field) := by rw [keyOf, hpx]
      have hky : keyOf y k.field = .sk (strKeyOf y k.field) := by rw [keyOf, hpy]
      rw [hpx, hpy, hkx, hky]
      have e1 : jsLtB (.pstr (strKeyOf x k.field)) (.pstr (strKeyOf y k.field))
          = (compare (strKeyOf x k.field) (strKeyOf y k.field) == Ordering.lt) := rfl
      have e2 : jsLtB (.pstr (strKeyOf y k.field)) (.pstr (strKeyOf x k.field))
          = (compare (strKeyOf y k.field) (strKeyOf x k.field) == Ordering.lt) := rfl
      have e3 : skeyCmp (.sk (strKeyOf x k.field)) (.sk (strKeyOf y k.field))
          = compare (strKeyOf x k.field) (strKeyOf y k.field) := rfl
      rw [e1, e2, e3, compare_swap_eq (strKeyOf x k.field) (strKeyOf y k.field)]
      cases hc : compare (strKeyOf x k.field) (strKeyOf y k.field) <;>
        cases hd : k.direction <;>
          simp only [Ordering.swap, dirOrd] <;>
            first
              | rfl
              | exact ihr
    · have hpx := isNumKey_spec x k.field (List.all_eq_true.mp hkn x hx)
      have hpy := isNumKey_spec y k.field (List.all_eq_true.mp hkn y hy)
      have hkx : keyOf x k.field = .nk (numKeyOf x k.field) := by rw [keyOf, hpx]
      have hky : keyOf y k.field = .nk (numKeyOf y k.field) := by rw [keyOf, hpy]
      rw [hpx, hpy, hkx, hky]
      have e1 : jsLtB (.pnum (some (numKeyOf x k.field))) (.pnum (some (numKeyOf y k.field)))
          = (compare (numKeyOf x k.field) (numKeyOf y k.field) == Ordering.lt) := rfl
      have e2 : jsLtB (.pnum (some (numKeyOf y k.field))) (.pnum (some (numKeyOf x k.field)))
          = (compare (numKeyOf y k.field) (numKeyOf x k.field) == Ordering.lt) := rfl
      have e3 : skeyCmp (.nk (numKeyOf x k.field)) (.nk (numKeyOf y k.field))
          = compare (numKeyOf x k.field) (numKeyOf y k.field) := rfl
      rw [e1, e2, e3, compare_swap_eq (numKeyOf x k.field) (numKeyOf y k.field)]
      cases hc : compare (numKeyOf x k.field) (numKeyOf y k.field) <;>
        cases hd : k.direction <;>
          simp only [Ordering.swap, dirOrd] <;>
            first
              | rfl
              | exact ihr

/-- Merge sort only evaluates its comparator on pairs from the list, so
comparators agreeing there sort identically. -/
theorem mergeSort_congr {le1 le2 : RItem → RItem → Bool} (l : List RItem)
    (h : ∀ a ∈ l, ∀ b ∈ l, le1 a b = le2 a b) :
    l.mergeSort le1 = l.mergeSort le2 := by
  have h2 : (l.mergeSort le1).map id = (l.map id).mergeSort le2 :=
    List.map_mergeSort (fun a am b bm => h a am b bm)
  simpa using h2

/-- On a collection whose sort keys are all type-homogeneous, applySorting
is merge sort under the total lexicographic key order. -/
theorem applySorting_eq_slex (data : List RItem) (sort : List SortKey)
    (hcons : sort.all (keyConsistent data) = true) :
    applySorting data sort = data.mergeSort (fun x y => slexLe sort x y) := by
  rw [applySorting]
  exact mergeSort_congr data
    (fun x hx y hy => sortComparator_le_eq_slexLe data sort hcons x y hx hy)

/-- C7: parsing sort=-a,b yields the descending key a followed by the
ascending key b (a leading minus means descending, absence ascending); and
sorting a collection on whose items every sort key is type-homogeneous (the
field holds strings throughout or genuine numbers throughout, the regime
where the JS comparator is consistent) returns a permutation ordered by the
multi-key comparator (keys tried in the given order, the first non-equal key
deciding, each in its own direction, so every earlier item compares
nonpositively to every later one) that is stable: a pair of items tying
under every sort key keeps its relative input order. -/
theorem sort_parse_and_stable (data : List RItem) (sort : List SortKey)
    (hcons : sort.all (keyConsistent data) = true) :
    processSortOptions {} { query := [("sort", QVal.str "-a,b")] }
        = .ok { sort := some [{ field := "a", direction := SortDir.desc },
                              { field := "b", direction := SortDir.asc }] }
      ∧ (applySorting data sort).Perm data
      ∧ (applySorting data sort).Pairwise (fun x y => sortComparator sort x y ≤ 0)
      ∧ (∀ x y : RItem, List.Sublist [x, y] data → sortComparator sort x y = 0 →
          List.Sublist [x, y] (applySorting data sort)) := by
  refine ⟨rfl, List.mergeSort_perm data _, ?_, ?_⟩
  · rw [applySorting_eq_slex data sort hcons]
    have hs := List.sorted_mergeSort
      (fun x y z => slexLe_trans sort x y z)
      (fun x y => slexLe_total sort x y) data
    refine hs.imp_of_mem ?_
    intro x y hx hy hxy
    have hx2 := List.mem_mergeSort.mp hx
    have hy2 := List.mem_mergeSort.mp hy
    have hagree := sortComparator_le_eq_slexLe data sort hcons x y hx2 hy2
    rw [hxy] at hagree
    exact of_decide_eq_true hagree
  · intro x y hsub htie
    have hx : x ∈ data := hsub.subset (by simp)
    have hy : y ∈ data := hsub.subset (by simp)
    have hle : slexLe sort x y = true := by
      rw [← sortComparator_le_eq_slexLe data sort hcons x y hx hy]
      exact decide_eq_true (by omega)
    rw [applySorting_eq_slex data sort hcons]
    exact List.pair_sublist_mergeSort
      (fun p q r => slexLe_trans sort p q r)
      (fun p q => slexLe_total sort p q)
      hle hsub

def c7sort : List SortKey :=
  [{ field := "a", direction := SortDir.desc }, { field := "b", direction := SortDir.asc }]

def c7data : List RItem :=
  [.mk "X" [("id", .val (.num 1)), ("a", .val (.num 1)), ("b", .val (.str "x"))],
   .mk "X" [("id", .val (.num 2)), ("a", .val (.num 2)), ("b", .val (.str "m"))],
   .mk "X" [("id", .val (.num 3)), ("a", .val (.num 2)), ("b", .val (.str "m"))],
   .mk "X" [("id", .val (.num 4)), ("a", .val (.num 1)), ("b", .val (.str "k"))]]

/-- C7 witness: the sort theorem applied to a concrete four-item collection
with a numeric first key and a string second key, two items tying under
both keys. -/
theorem sort_parse_and_stable_witness :
    c7sort.all (keyConsistent c7data) = true
      ∧ (processSortOptions {} { query := [("sort", QVal.str "-a,b")] }
            = .ok { sort := some [{ field := "a", direction := SortDir.desc },
                                  { field := "b", direction := SortDir.asc }] }
          ∧ (applySorting c7data c7sort).Perm c7data
          ∧ (applySorting c7data c7sort).Pairwise
              (fun x y => sortComparator c7sort x y ≤ 0)
          ∧ (∀ x y : RItem, List.Sublist [x, y] c7data → sortComparator c7sort x y = 0 →
              List.Sublist [x, y] (applySorting c7data c7sort))) :=
  ⟨by decide, sort_parse_and_stable c7data c7sort (by decide)⟩
